/-
Verification of the threader repository's core: platform adapters,
mainline-thread reconstruction and the resilient fetch layer.

Shallow embedding conventions:
* Host (JavaScript runtime) functions are made explicit: `Date.parse` is a
  parameter `dp : String → Option Int` (`none` models `NaN`), `Number` on
  header strings is `numParse : String → Option ℚ`, `Date.now()` is an
  explicit `now : Int`, `new Date().toISOString()` an explicit
  `nowIso : String`.  Network access (`fetch` together with the per-host
  throttle / cache / coalescing machinery, which is invisible to the claims
  proved here) is a parameter returning the parsed JSON of each endpoint.
* `String.prototype.localeCompare` is modelled as the lexicographic
  comparison of the two strings (Mathlib's linear order on `String`).
* JavaScript's stable `Array.prototype.sort` is modelled by a stable
  insertion sort driven by the comparator (`cmp a b ≤ 0` places `a` first).
* JS `Map` objects are association lists with insert-overwrite semantics;
  iteration order is insertion order, as in JS.
* JS truthiness on strings (`""` is falsy) is made explicit wherever the
  source relies on it.
-/
import Mathlib

namespace Threader

/-! ## Post / Thread data model (src/core/types.js) -/

structure Counts where
  replies : Int
  boosts : Int
  favourites : Int
  deriving Repr, DecidableEq

structure Account where
  id : String
  username : String
  acct : String
  displayName : String
  url : String
  deriving Repr, DecidableEq

structure Attachment where
  id : String
  type : String
  url : String
  previewUrl : Option String
  description : String
  deriving Repr, DecidableEq

structure LinkEmbed where
  id : String
  url : String
  title : String
  description : String
  siteName : String
  imageUrl : Option String
  deriving Repr, DecidableEq

structure Post where
  id : String
  url : String
  createdAt : String
  contentHtml : String
  spoilerText : String
  sensitive : Bool
  inReplyToId : Option String
  counts : Counts
  account : Account
  attachments : List Attachment
  linkEmbeds : List LinkEmbed
  deriving Repr, DecidableEq

structure Thread where
  platform : String
  instanceHost : String
  seedPostId : String
  sourceUrl : String
  fetchedAt : String
  hasAlternateBranches : Bool
  posts : List Post
  author : Account
  deriving Repr, DecidableEq

/-! ## JS `Map` model: association lists with insert-overwrite semantics -/

/-- `Map.prototype.set`: overwrite in place, append new keys at the end. -/
def mapSet {β : Type} : List (String × β) → String → β → List (String × β)
  | [], k, v => [(k, v)]
  | (k', v') :: rest, k, v =>
    if k' = k then (k, v) :: rest else (k', v') :: mapSet rest k v

/-- `Map.prototype.get`. -/
def mapGet {β : Type} : List (String × β) → String → Option β
  | [], _ => none
  | (k', v') :: rest, k => if k' = k then some v' else mapGet rest k

/-- `Map.prototype.has`. -/
def mapHasKey {β : Type} (m : List (String × β)) (k : String) : Bool :=
  (mapGet m k).isSome

/-- `Map.prototype.values()` in insertion order. -/
def mapValues {β : Type} (m : List (String × β)) : List β :=
  m.map Prod.snd

/-- Append `v` to the bucket stored under `k` (`map.get(k) || []` then push). -/
def bucketAdd {β : Type} : List (String × List β) → String → β → List (String × List β)
  | [], k, v => [(k, [v])]
  | (k', b) :: rest, k, v =>
    if k' = k then (k, b ++ [v]) :: rest else (k', b) :: bucketAdd rest k v

/-- `map.get(k) || []`. -/
def bucketGet {β : Type} (m : List (String × List β)) (k : String) : List β :=
  (mapGet m k).getD []

/-! ## Stable sort by a JS comparator

JS `Array.prototype.sort(cmp)` is stable.  We model it as insertion sort
built with `r a b = (cmp a b ≤ 0)`; an element is inserted in front of the
first element it compares ≤ to, which reproduces stable-sort output for
every comparator that is antisymmetric on the sorted array. -/

def insertSorted {α : Type} (r : α → α → Bool) (x : α) : List α → List α
  | [] => [x]
  | y :: ys => if r x y then x :: y :: ys else y :: insertSorted r x ys

def sortByCmp {α : Type} (r : α → α → Bool) (l : List α) : List α :=
  l.foldr (insertSorted r) []

/-! ## Mainline builder (src/core/threadBuilder.js) -/

/-- `asTimestamp` (threadBuilder.js:1): `Date.parse`, `NaN ↦ 0`. -/
def asTimestamp (dp : String → Option Int) (value : String) : Int :=
  (dp value).getD 0

/-- Lexicographic three-way comparison of code-point sequences. -/
def charListCompare : List Char → List Char → Int
  | [], [] => 0
  | [], _ :: _ => -1
  | _ :: _, [] => 1
  | a :: as, b :: bs =>
    if a.toNat < b.toNat then -1
    else if b.toNat < a.toNat then 1
    else charListCompare as bs

/-- `localeCompare`, modelled as lexicographic string comparison. -/
def localeCompare (a b : String) : Int :=
  charListCompare a.data b.data

/-- `compareByDate` (threadBuilder.js:9). -/
def compareByDate (dp : String → Option Int) (a b : Post) : Int :=
  let delta := asTimestamp dp a.createdAt - asTimestamp dp b.createdAt
  if delta ≠ 0 then delta else localeCompare a.id b.id

/-- The boolean relation fed to the stable sort for `compareByDate`. -/
def cmpLe (dp : String → Option Int) (a b : Post) : Bool :=
  compareByDate dp a b ≤ 0

structure BuildInput where
  seedPost : Post
  ancestors : List Post
  descendants : List Post
  deriving Repr, DecidableEq

structure BuildResult where
  posts : List Post
  hasAlternateBranches : Bool
  deriving Repr, DecidableEq

/-- `[...input.ancestors, input.seedPost, ...input.descendants]`. -/
def buildCandidates (input : BuildInput) : List Post :=
  input.ancestors ++ [input.seedPost] ++ input.descendants

/-- The `byId` map (threadBuilder.js:27–32). -/
def candidateIndex (input : BuildInput) : List (String × Post) :=
  (buildCandidates input).foldl (fun m p => mapSet m p.id p) []

/-- One step of registering a post into `childrenByParent`
(threadBuilder.js:36–43); `""` is falsy in the `!post.inReplyToId` guard. -/
def registerChild (byId : List (String × Post)) (cm : List (String × List Post))
    (p : Post) : List (String × List Post) :=
  match p.inReplyToId with
  | none => cm
  | some pid => if pid = "" ∨ ¬ mapHasKey byId pid then cm else bucketAdd cm pid p

/-- `childrenByParent` before sorting, built over `byId.values()`. -/
def childrenRaw (byId : List (String × Post)) : List (String × List Post) :=
  (mapValues byId).foldl (registerChild byId) []

/-- `childrenByParent` after each bucket is sorted by `compareByDate`
(threadBuilder.js:45–47). -/
def childrenSorted (dp : String → Option Int) (byId : List (String × Post)) :
    List (String × List Post) :=
  (childrenRaw byId).map (fun kb => (kb.1, sortByCmp (cmpLe dp) kb.2))

/-- The upward walk (threadBuilder.js:53–65).  The JS `while` loop adds one
unvisited id of `byId` to `visitedUp` per iteration, so it performs at most
`byId.length` iterations; `fuel` is instantiated with a bound that the loop
can never exhaust, making the bounded recursion semantically identical. -/
def walkUp (byId : List (String × Post)) (visited : List String) (cursor : Post) :
    Nat → List Post
  | 0 => []
  | fuel + 1 =>
    match cursor.inReplyToId with
    | none => []
    | some pid =>
      if pid = "" then []
      else
        match mapGet byId pid with
        | none => []
        | some parent =>
          if parent.id ∈ visited then []
          else walkUp byId (parent.id :: visited) parent fuel ++ [parent]

/-- The downward walk (threadBuilder.js:67–85), same bounded-fuel treatment. -/
def walkDown (children : List (String × List Post)) (visited : List String)
    (cursor : Post) : Nat → List Post
  | 0 => []
  | fuel + 1 =>
    match bucketGet children cursor.id with
    | [] => []
    | c :: _ =>
      if c.id ∈ visited then []
      else c :: walkDown children (c.id :: visited) c fuel

/-- `buildMainlineThread` (threadBuilder.js:26–91). -/
def buildMainlineThread (dp : String → Option Int) (input : BuildInput) : BuildResult :=
  let byId := candidateIndex input
  let children := childrenSorted dp byId
  let hasAlt := children.any (fun kb => 1 < kb.2.length)
  let fuel := (buildCandidates input).length + 1
  let beforeSeed := walkUp byId [input.seedPost.id] input.seedPost fuel
  let afterSeed := walkDown children [input.seedPost.id] input.seedPost fuel
  { posts := beforeSeed ++ [input.seedPost] ++ afterSeed,
    hasAlternateBranches := hasAlt }

/-! ## Association-map lemmas -/

theorem mapGet_mem {β : Type} {m : List (String × β)} {k : String} {v : β}
    (h : mapGet m k = some v) : (k, v) ∈ m := by
  induction m with
  | nil => simp [mapGet] at h
  | cons kv rest ih =>
    obtain ⟨k', v'⟩ := kv
    by_cases hk : k' = k
    · subst hk
      simp [mapGet] at h
      simp [h]
    · simp [mapGet, hk] at h
      exact List.mem_cons_of_mem _ (ih h)

theorem mem_mapSet {β : Type} {m : List (String × β)} {k : String} {v : β}
    {kv : String × β} (h : kv ∈ mapSet m k v) : kv = (k, v) ∨ kv ∈ m := by
  induction m with
  | nil => simpa [mapSet] using h
  | cons kv' rest ih =>
    by_cases hk : kv'.1 = k
    · rw [show kv' = (kv'.1, kv'.2) from rfl] at h
      simp [mapSet, hk] at h
      rcases h with h | h
      · exact Or.inl (by simp [h])
      · exact Or.inr (List.mem_cons_of_mem _ h)
    · rw [show kv' = (kv'.1, kv'.2) from rfl] at h
      simp [mapSet, hk] at h
      rcases h with h | h
      · exact Or.inr (by simp [h])
      · rcases ih h with h' | h'
        · exact Or.inl h'
        · exact Or.inr (List.mem_cons_of_mem _ h')

/-- Every entry of a fold of `mapSet` insertions satisfies any predicate that
holds of the accumulator's entries and of every inserted pair. -/
theorem foldl_mapSet_invariant {l : List Post} {m : List (String × Post)}
    (P : String × Post → Prop)
    (hm : ∀ kv ∈ m, P kv) (hl : ∀ p ∈ l, P (p.id, p)) :
    ∀ kv ∈ l.foldl (fun acc p => mapSet acc p.id p) m, P kv := by
  induction l generalizing m with
  | nil => simpa using hm
  | cons p rest ih =>
    intro kv hkv
    refine @ih (mapSet m p.id p) ?_ (fun q hq => hl q (List.mem_cons_of_mem _ hq)) kv hkv
    intro kv' hkv'
    rcases mem_mapSet hkv' with h | h
    · subst h; exact hl p (List.mem_cons_self _ _)
    · exact hm kv' h

theorem candidateIndex_entry {input : BuildInput} {k : String} {v : Post}
    (h : mapGet (candidateIndex input) k = some v) :
    v ∈ buildCandidates input ∧ v.id = k := by
  have hmem := mapGet_mem h
  have := @foldl_mapSet_invariant (buildCandidates input) []
    (fun kv => kv.2 ∈ buildCandidates input ∧ kv.2.id = kv.1)
    (by simp) (fun p hp => ⟨hp, rfl⟩)
  exact this (k, v) hmem

theorem mem_mapValues {β : Type} {m : List (String × β)} {v : β} :
    v ∈ mapValues m ↔ ∃ k, (k, v) ∈ m := by
  simp only [mapValues, List.mem_map]
  constructor
  · rintro ⟨⟨k, v'⟩, hm, rfl⟩; exact ⟨k, hm⟩
  · rintro ⟨k, hm⟩; exact ⟨(k, v), hm, rfl⟩

theorem candidateIndex_value {input : BuildInput} {v : Post}
    (h : v ∈ mapValues (candidateIndex input)) : v ∈ buildCandidates input := by
  obtain ⟨k, hk⟩ := mem_mapValues.mp h
  have := @foldl_mapSet_invariant (buildCandidates input) []
    (fun kv => kv.2 ∈ buildCandidates input ∧ kv.2.id = kv.1)
    (by simp) (fun p hp => ⟨hp, rfl⟩)
  exact (this (k, v) hk).1

/-! ## Stable-sort lemmas -/

theorem mem_insertSorted {α : Type} {r : α → α → Bool} {x y : α} {l : List α} :
    y ∈ insertSorted r x l ↔ y = x ∨ y ∈ l := by
  induction l with
  | nil => simp [insertSorted]
  | cons z zs ih =>
    by_cases h : r x z
    · simp [insertSorted, h]
    · simp only [insertSorted, if_neg h, List.mem_cons, ih]
      tauto

theorem mem_sortByCmp {α : Type} {r : α → α → Bool} {x : α} {l : List α} :
    x ∈ sortByCmp r l ↔ x ∈ l := by
  induction l with
  | nil => simp [sortByCmp]
  | cons y ys ih =>
    simp only [sortByCmp, List.foldr_cons, mem_insertSorted, List.mem_cons]
    rw [show ys.foldr (insertSorted r) [] = sortByCmp r ys from rfl, ih]

theorem perm_insertSorted {α : Type} (r : α → α → Bool) (x : α) (l : List α) :
    List.Perm (insertSorted r x l) (x :: l) := by
  induction l with
  | nil => simp [insertSorted]
  | cons z zs ih =>
    by_cases h : r x z
    · simp [insertSorted, h]
    · simp only [insertSorted, if_neg h]
      exact (ih.cons z).trans (List.Perm.swap x z zs)

theorem perm_sortByCmp {α : Type} (r : α → α → Bool) (l : List α) :
    List.Perm (sortByCmp r l) l := by
  induction l with
  | nil => rfl
  | cons y ys ih =>
    exact (perm_insertSorted r y (sortByCmp r ys)).trans (ih.cons y)

theorem pairwise_insertSorted {α : Type} {r : α → α → Bool} {x : α} {l : List α}
    (htot : ∀ a b, r a b = true ∨ r b a = true)
    (htrans : ∀ a b c, r a b = true → r b c = true → r a c = true)
    (h : l.Pairwise (fun a b => r a b = true)) :
    (insertSorted r x l).Pairwise (fun a b => r a b = true) := by
  induction l with
  | nil => simp [insertSorted]
  | cons z zs ih =>
    rcases List.pairwise_cons.mp h with ⟨hz, hzs⟩
    by_cases hxz : r x z
    · rw [show insertSorted r x (z :: zs) = x :: z :: zs by simp [insertSorted, hxz]]
      refine List.pairwise_cons.mpr ⟨?_, h⟩
      intro b hb
      rcases List.mem_cons.mp hb with rfl | hb'
      · exact hxz
      · exact htrans x z b hxz (hz b hb')
    · rw [show insertSorted r x (z :: zs) = z :: insertSorted r x zs by
        simp [insertSorted, hxz]]
      refine List.pairwise_cons.mpr ⟨?_, ih hzs⟩
      intro b hb
      rcases mem_insertSorted.mp hb with hbx | hb'
      · rw [hbx]
        rcases htot x z with h'' | h''
        · exact absurd h'' hxz
        · exact h''
      · exact hz b hb'

theorem pairwise_sortByCmp {α : Type} {r : α → α → Bool} {l : List α}
    (htot : ∀ a b, r a b = true ∨ r b a = true)
    (htrans : ∀ a b c, r a b = true → r b c = true → r a c = true) :
    (sortByCmp r l).Pairwise (fun a b => r a b = true) := by
  induction l with
  | nil => simp [sortByCmp]
  | cons y ys ih => exact pairwise_insertSorted htot htrans ih

/-! ## `childrenByParent` characterization -/

theorem mapGet_bucketAdd {β : Type} (m : List (String × List β)) (k k' : String)
    (v : β) :
    mapGet (bucketAdd m k v) k' =
      if k' = k then some (bucketGet m k ++ [v]) else mapGet m k' := by
  induction m with
  | nil =>
    by_cases h : k' = k
    · subst h; simp [bucketAdd, mapGet, bucketGet]
    · have h2 : ¬(k = k') := fun hh => h hh.symm
      simp [bucketAdd, mapGet, bucketGet, h, h2]
  | cons kb rest ih =>
    obtain ⟨k₀, b⟩ := kb
    by_cases h0 : k₀ = k
    · subst h0
      by_cases h1 : k' = k₀
      · subst h1; simp [bucketAdd, mapGet, bucketGet]
      · have h2 : ¬(k₀ = k') := fun hh => h1 hh.symm
        simp [bucketAdd, mapGet, bucketGet, h1, h2]
    · by_cases h1 : k₀ = k'
      · subst h1
        simp [bucketAdd, mapGet, h0]
      · have h2 : bucketGet ((k₀, b) :: rest) k = bucketGet rest k := by
          simp [bucketGet, mapGet, h0]
        simp [bucketAdd, mapGet, h0, h1, ih, h2]

theorem bucketGet_bucketAdd {β : Type} (m : List (String × List β)) (k k' : String)
    (v : β) :
    bucketGet (bucketAdd m k v) k' =
      if k' = k then bucketGet m k ++ [v] else bucketGet m k' := by
  by_cases h : k' = k
  · simp [bucketGet, mapGet_bucketAdd, h]
  · simp [bucketGet, mapGet_bucketAdd, h]

/-- The boolean condition under which `buildMainlineThread` registers `p` as a
child of `pid` (threadBuilder.js:36–43). -/
def childPred (byId : List (String × Post)) (pid : String) (p : Post) : Bool :=
  decide (p.inReplyToId = some pid ∧ pid ≠ "" ∧ mapHasKey byId pid = true)

theorem bucketGet_foldl_registerChild (byId : List (String × Post))
    (l : List Post) (cm : List (String × List Post)) (pid : String) :
    bucketGet (l.foldl (registerChild byId) cm) pid =
      bucketGet cm pid ++ l.filter (childPred byId pid) := by
  induction l generalizing cm with
  | nil => simp
  | cons p rest ih =>
    rw [List.foldl_cons, ih, List.filter_cons]
    cases hrep : p.inReplyToId with
    | none =>
      have hpred : childPred byId pid p = false := by
        simp [childPred, hrep]
      simp [registerChild, hrep, hpred]
    | some q =>
      by_cases hskip : q = "" ∨ ¬ mapHasKey byId q
      · have hstep : registerChild byId cm p = cm := by
          simp only [registerChild, hrep]
          exact if_pos hskip
        have hpred : childPred byId pid p = false := by
          by_cases hq : q = pid
          -- if q = pid the skip conditions negate the predicate side conditions
          · subst hq
            simp only [childPred, decide_eq_false_iff_not]
            rintro ⟨-, hne, hhas⟩
            rcases hskip with h | h
            · exact hne h
            · exact h hhas
          · simp only [childPred, decide_eq_false_iff_not]
            rintro ⟨heq, -, -⟩
            rw [hrep] at heq
            exact hq (Option.some.inj heq)
        simp [hstep, hpred]
      · push_neg at hskip
        have hstep : registerChild byId cm p = bucketAdd cm q p := by
          simp only [registerChild, hrep]
          refine if_neg ?_
          rintro (h | h)
          · exact hskip.1 h
          · exact h hskip.2
        rw [hstep, bucketGet_bucketAdd]
        by_cases hq : pid = q
        · subst hq
          have hpred : childPred byId pid p = true := by
            simp [childPred, hrep, hskip.1, hskip.2]
          simp [hpred, List.append_assoc]
        · have hpred : childPred byId pid p = false := by
            simp only [childPred, decide_eq_false_iff_not]
            rintro ⟨heq, -, -⟩
            rw [hrep] at heq
            exact hq (Option.some.inj heq).symm
          simp [hq, hpred]

theorem bucketGet_childrenRaw (byId : List (String × Post)) (pid : String) :
    bucketGet (childrenRaw byId) pid =
      (mapValues byId).filter (childPred byId pid) := by
  have := bucketGet_foldl_registerChild byId (mapValues byId) [] pid
  simpa [childrenRaw, bucketGet, mapGet] using this

theorem mapGet_mapSnd {β γ : Type} (g : β → γ) (m : List (String × β)) (k : String) :
    mapGet (m.map (fun kb => (kb.1, g kb.2))) k = (mapGet m k).map g := by
  induction m with
  | nil => simp [mapGet]
  | cons kb rest ih =>
    by_cases h : kb.1 = k
    · simp [mapGet, h]
    · simp [mapGet, h, ih]

theorem bucketGet_childrenSorted (dp : String → Option Int)
    (byId : List (String × Post)) (pid : String) :
    bucketGet (childrenSorted dp byId) pid =
      sortByCmp (cmpLe dp) (bucketGet (childrenRaw byId) pid) := by
  unfold childrenSorted bucketGet
  rw [mapGet_mapSnd]
  cases mapGet (childrenRaw byId) pid <;> simp [sortByCmp]

theorem childrenSorted_mem {dp : String → Option Int} {byId : List (String × Post)}
    {pid : String} {c : Post}
    (h : c ∈ bucketGet (childrenSorted dp byId) pid) :
    c.inReplyToId = some pid ∧ c ∈ mapValues byId := by
  rw [bucketGet_childrenSorted] at h
  have h' := mem_sortByCmp.mp h
  rw [bucketGet_childrenRaw] at h'
  have hm := List.mem_filter.mp h'
  refine ⟨?_, hm.1⟩
  have hp := of_decide_eq_true hm.2
  exact hp.1

/-! ## Walk lemmas -/

/-- `q` is a direct reply to `p`: the linkage between adjacent mainline posts. -/
def replyLink (p q : Post) : Prop := q.inReplyToId = some p.id

instance : DecidableRel replyLink := fun p q => by
  unfold replyLink; infer_instance

theorem walkUp_ids (byId : List (String × Post)) :
    ∀ (fuel : Nat) (visited : List String) (cursor : Post),
      ((walkUp byId visited cursor fuel).map Post.id).Nodup ∧
      ∀ x ∈ (walkUp byId visited cursor fuel).map Post.id, x ∉ visited := by
  intro fuel
  induction fuel with
  | zero => intro visited cursor; simp [walkUp]
  | succ n ih =>
    intro visited cursor
    cases hrep : cursor.inReplyToId with
    | none => simp [walkUp, hrep]
    | some pid =>
      by_cases hpid : pid = ""
      · simp [walkUp, hrep, hpid]
      · cases hget : mapGet byId pid with
        | none => simp [walkUp, hrep, hpid, hget]
        | some parent =>
          by_cases hv : parent.id ∈ visited
          · simp [walkUp, hrep, hpid, hget, hv]
          · have hw : walkUp byId visited cursor (n + 1) =
                walkUp byId (parent.id :: visited) parent n ++ [parent] := by
              simp [walkUp, hrep, hpid, hget, hv]
            obtain ⟨ihn, ihd⟩ := ih (parent.id :: visited) parent
            rw [hw]
            constructor
            · rw [List.map_append]
              rw [List.nodup_append]
              refine ⟨ihn, by simp, ?_⟩
              intro x hx
              have := ihd x hx
              simp only [List.map_cons, List.map_nil, List.mem_singleton]
              intro hxp
              exact this (by simp [hxp])
            · intro x hx
              rw [List.map_append] at hx
              rcases List.mem_append.mp hx with hx' | hx'
              · intro hxv
                exact ihd x hx' (List.mem_cons_of_mem _ hxv)
              · simp only [List.map_cons, List.map_nil, List.mem_singleton] at hx'
                rw [hx']
                exact hv

theorem walkUp_chain (byId : List (String × Post))
    (hWf : ∀ k v, mapGet byId k = some v → v.id = k) :
    ∀ (fuel : Nat) (visited : List String) (cursor : Post),
      List.Chain' replyLink (walkUp byId visited cursor fuel ++ [cursor]) := by
  intro fuel
  induction fuel with
  | zero => intro visited cursor; simp [walkUp]
  | succ n ih =>
    intro visited cursor
    cases hrep : cursor.inReplyToId with
    | none => simp [walkUp, hrep]
    | some pid =>
      by_cases hpid : pid = ""
      · simp [walkUp, hrep, hpid]
      · cases hget : mapGet byId pid with
        | none => simp [walkUp, hrep, hpid, hget]
        | some parent =>
          by_cases hv : parent.id ∈ visited
          · simp [walkUp, hrep, hpid, hget, hv]
          · have hw : walkUp byId visited cursor (n + 1) =
                walkUp byId (parent.id :: visited) parent n ++ [parent] := by
              simp [walkUp, hrep, hpid, hget, hv]
            rw [hw]
            have hlink : replyLink parent cursor := by
              unfold replyLink
              rw [hrep, hWf pid parent hget]
            refine List.Chain'.append (ih (parent.id :: visited) parent)
              (List.chain'_singleton cursor) ?_
            intro x hx y hy
            rw [List.getLast?_concat] at hx
            simp only [List.head?_cons, Option.mem_def, Option.some.injEq] at hx hy
            rw [← hx, ← hy]
            exact hlink

theorem walkUp_rank (byId : List (String × Post)) (cands : List Post)
    (rank : String → Nat)
    (hGet : ∀ k v, mapGet byId k = some v → v ∈ cands ∧ v.id = k)
    (hTree : ∀ p ∈ cands, ∀ q ∈ cands, p.inReplyToId = some q.id →
      rank q.id < rank p.id) :
    ∀ (fuel : Nat) (visited : List String) (cursor : Post), cursor ∈ cands →
      ∀ p ∈ walkUp byId visited cursor fuel, rank p.id < rank cursor.id := by
  intro fuel
  induction fuel with
  | zero => intro visited cursor _; simp [walkUp]
  | succ n ih =>
    intro visited cursor hc
    cases hrep : cursor.inReplyToId with
    | none => simp [walkUp, hrep]
    | some pid =>
      by_cases hpid : pid = ""
      · simp [walkUp, hrep, hpid]
      · cases hget : mapGet byId pid with
        | none => simp [walkUp, hrep, hpid, hget]
        | some parent =>
          by_cases hv : parent.id ∈ visited
          · simp [walkUp, hrep, hpid, hget, hv]
          · have hw : walkUp byId visited cursor (n + 1) =
                walkUp byId (parent.id :: visited) parent n ++ [parent] := by
              simp [walkUp, hrep, hpid, hget, hv]
            rw [hw]
            obtain ⟨hpc, hpk⟩ := hGet pid parent hget
            have hstep : rank parent.id < rank cursor.id := by
              refine hTree cursor hc parent hpc ?_
              rw [hrep, hpk]
            intro p hp
            rcases List.mem_append.mp hp with hp' | hp'
            · exact lt_trans (ih (parent.id :: visited) parent hpc p hp') hstep
            · rw [List.mem_singleton.mp hp']
              exact hstep

theorem walkDown_ids (children : List (String × List Post)) :
    ∀ (fuel : Nat) (visited : List String) (cursor : Post),
      ((walkDown children visited cursor fuel).map Post.id).Nodup ∧
      ∀ x ∈ (walkDown children visited cursor fuel).map Post.id, x ∉ visited := by
  intro fuel
  induction fuel with
  | zero => intro visited cursor; simp [walkDown]
  | succ n ih =>
    intro visited cursor
    cases hbucket : bucketGet children cursor.id with
    | nil => simp [walkDown, hbucket]
    | cons c cs =>
      by_cases hv : c.id ∈ visited
      · simp [walkDown, hbucket, hv]
      · have hw : walkDown children visited cursor (n + 1) =
            c :: walkDown children (c.id :: visited) c n := by
          simp [walkDown, hbucket, hv]
        obtain ⟨ihn, ihd⟩ := ih (c.id :: visited) c
        rw [hw]
        constructor
        · rw [List.map_cons, List.nodup_cons]
          refine ⟨?_, ihn⟩
          intro hc
          exact ihd c.id hc (List.mem_cons_self _ _)
        · intro x hx
          rcases List.mem_cons.mp hx with hx' | hx'
          · rw [hx']; exact hv
          · intro hxv
            exact ihd x hx' (List.mem_cons_of_mem _ hxv)

theorem walkDown_chain (children : List (String × List Post)) (cands : List Post)
    (hBucket : ∀ pid c, c ∈ bucketGet children pid →
      c.inReplyToId = some pid ∧ c ∈ cands) :
    ∀ (fuel : Nat) (visited : List String) (cursor : Post),
      List.Chain' replyLink (cursor :: walkDown children visited cursor fuel) := by
  intro fuel
  induction fuel with
  | zero => intro visited cursor; simp [walkDown]
  | succ n ih =>
    intro visited cursor
    cases hbucket : bucketGet children cursor.id with
    | nil => simp [walkDown, hbucket]
    | cons c cs =>
      by_cases hv : c.id ∈ visited
      · simp [walkDown, hbucket, hv]
      · have hw : walkDown children visited cursor (n + 1) =
            c :: walkDown children (c.id :: visited) c n := by
          simp [walkDown, hbucket, hv]
        rw [hw]
        refine List.chain'_cons'.mpr ⟨?_, ih (c.id :: visited) c⟩
        intro y hy
        simp only [List.head?_cons, Option.mem_def, Option.some.injEq] at hy
        rw [← hy]
        exact (hBucket cursor.id c (by rw [hbucket]; exact List.mem_cons_self _ _)).1

theorem walkDown_rank (children : List (String × List Post)) (cands : List Post)
    (rank : String → Nat)
    (hBucket : ∀ pid c, c ∈ bucketGet children pid →
      c.inReplyToId = some pid ∧ c ∈ cands)
    (hTree : ∀ p ∈ cands, ∀ q ∈ cands, p.inReplyToId = some q.id →
      rank q.id < rank p.id) :
    ∀ (fuel : Nat) (visited : List String) (cursor : Post), cursor ∈ cands →
      ∀ q ∈ walkDown children visited cursor fuel, rank cursor.id < rank q.id := by
  intro fuel
  induction fuel with
  | zero => intro visited cursor _; simp [walkDown]
  | succ n ih =>
    intro visited cursor hc
    cases hbucket : bucketGet children cursor.id with
    | nil => simp [walkDown, hbucket]
    | cons c cs =>
      by_cases hv : c.id ∈ visited
      · simp [walkDown, hbucket, hv]
      · have hw : walkDown children visited cursor (n + 1) =
            c :: walkDown children (c.id :: visited) c n := by
          simp [walkDown, hbucket, hv]
        rw [hw]
        obtain ⟨hrep, hcc⟩ :=
          hBucket cursor.id c (by rw [hbucket]; exact List.mem_cons_self _ _)
        have hstep : rank cursor.id < rank c.id := hTree c hcc cursor hc hrep
        intro q hq
        rcases List.mem_cons.mp hq with hq' | hq'
        · rw [hq']; exact hstep
        · exact lt_trans hstep (ih (c.id :: visited) c hcc q hq')

/-! ## Claim C1 -/

/-- C1: for every input whose posts form a tree under `inReplyToId`
(witnessed by a rank function that strictly increases from parent to child,
which rules out cycles; a post replies to at most one parent by the shape of
the data), `buildMainlineThread` returns a `posts` sequence in which no id
occurs twice and every adjacent pair `(p, q)` satisfies
`q.inReplyToId = some p.id` — in particular whenever both posts are present
in the candidate index. -/
theorem buildMainlineThread_nodup_and_linked (dp : String → Option Int)
    (rank : String → Nat) (input : BuildInput)
    (hTree : ∀ p ∈ buildCandidates input, ∀ q ∈ buildCandidates input,
      p.inReplyToId = some q.id → rank q.id < rank p.id) :
    ((buildMainlineThread dp input).posts.map Post.id).Nodup ∧
    List.Chain' replyLink (buildMainlineThread dp input).posts := by
  have hGet : ∀ k v, mapGet (candidateIndex input) k = some v →
      v ∈ buildCandidates input ∧ v.id = k := fun _ _ h => candidateIndex_entry h
  have hWf : ∀ k v, mapGet (candidateIndex input) k = some v → v.id = k :=
    fun _ _ h => (candidateIndex_entry h).2
  have hBucket : ∀ pid c,
      c ∈ bucketGet (childrenSorted dp (candidateIndex input)) pid →
      c.inReplyToId = some pid ∧ c ∈ buildCandidates input := by
    intro pid c hc
    obtain ⟨h1, h2⟩ := childrenSorted_mem hc
    exact ⟨h1, candidateIndex_value h2⟩
  have hseed : input.seedPost ∈ buildCandidates input := by
    simp [buildCandidates]
  have hposts : (buildMainlineThread dp input).posts =
      walkUp (candidateIndex input) [input.seedPost.id] input.seedPost
          ((buildCandidates input).length + 1) ++ [input.seedPost] ++
        walkDown (childrenSorted dp (candidateIndex input)) [input.seedPost.id]
          input.seedPost ((buildCandidates input).length + 1) := rfl
  rw [hposts]
  obtain ⟨hbn, hbd⟩ := walkUp_ids (candidateIndex input)
    ((buildCandidates input).length + 1) [input.seedPost.id] input.seedPost
  obtain ⟨han, had⟩ := walkDown_ids (childrenSorted dp (candidateIndex input))
    ((buildCandidates input).length + 1) [input.seedPost.id] input.seedPost
  have hbrank := walkUp_rank (candidateIndex input) (buildCandidates input) rank
    hGet hTree ((buildCandidates input).length + 1) [input.seedPost.id]
    input.seedPost hseed
  have harank := walkDown_rank (childrenSorted dp (candidateIndex input))
    (buildCandidates input) rank hBucket hTree
    ((buildCandidates input).length + 1) [input.seedPost.id] input.seedPost hseed
  constructor
  · rw [List.map_append, List.map_append]
    rw [List.nodup_append, List.nodup_append]
    refine ⟨⟨hbn, by simp, ?_⟩, han, ?_⟩
    · intro x hx
      have := hbd x hx
      simp only [List.map_cons, List.map_nil, List.mem_singleton]
      intro hxs
      exact this (by simp [hxs])
    · intro x hx
      rcases List.mem_append.mp hx with hx' | hx'
      · -- x is the id of a proper ancestor: its rank is below the seed's
        obtain ⟨p, hp, hpx⟩ := List.mem_map.mp hx'
        intro hxa
        obtain ⟨q, hq, hqx⟩ := List.mem_map.mp hxa
        have h1 : rank p.id < rank input.seedPost.id := hbrank p hp
        have h2 : rank input.seedPost.id < rank q.id := harank q hq
        rw [hpx] at h1
        rw [hqx] at h2
        omega
      · -- x is the seed id itself: the downward walk never revisits it
        simp only [List.map_cons, List.map_nil, List.mem_singleton] at hx'
        rw [hx']
        intro hxa
        obtain ⟨q, hq, hqx⟩ := List.mem_map.mp hxa
        exact had q.id (List.mem_map.mpr ⟨q, hq, rfl⟩) (by simp [hqx])
  · have h1 := walkUp_chain (candidateIndex input) hWf
      ((buildCandidates input).length + 1) [input.seedPost.id] input.seedPost
    have h2full := walkDown_chain (childrenSorted dp (candidateIndex input))
      (buildCandidates input) hBucket
      ((buildCandidates input).length + 1) [input.seedPost.id] input.seedPost
    obtain ⟨hhead, h2⟩ := List.chain'_cons'.mp h2full
    refine List.Chain'.append h1 h2 ?_
    intro x hx y hy
    rw [List.getLast?_concat] at hx
    simp only [Option.mem_def, Option.some.injEq] at hx
    rw [← hx]
    exact hhead y hy

/-- A candidate post with only the fields the thread builder inspects filled
in; all other fields are inert defaults. -/
def mkPost (id createdAt : String) (reply : Option String) (accountId : String) :
    Post :=
  { id := id, url := "", createdAt := createdAt, contentHtml := "",
    spoilerText := "", sensitive := false, inReplyToId := reply,
    counts := ⟨0, 0, 0⟩,
    account := { id := accountId, username := "", acct := "", displayName := "",
                 url := "" },
    attachments := [], linkEmbeds := [] }

/-- Witness for C1 at a concrete tree: ancestor `a` ← seed `bb` ← child `ccc`,
with id length as the rank function. -/
theorem buildMainlineThread_nodup_and_linked_witness :
    (((buildMainlineThread (fun _ => none)
        ⟨mkPost "bb" "" (some "a") "A", [mkPost "a" "" none "A"],
          [mkPost "ccc" "" (some "bb") "A"]⟩).posts.map Post.id).Nodup ∧
      List.Chain' replyLink (buildMainlineThread (fun _ => none)
        ⟨mkPost "bb" "" (some "a") "A", [mkPost "a" "" none "A"],
          [mkPost "ccc" "" (some "bb") "A"]⟩).posts) :=
  buildMainlineThread_nodup_and_linked (fun _ => none) String.length _ (by decide)

/-! ## Claim C2 -/

/-- The claim's reading of the branching flag, following the spec's words:
some parent id has at least two same-author children among the candidate set
(`same-author` = account id equal to the seed's account id). -/
def specAlternateBranches (input : BuildInput) : Prop :=
  ∃ pid, 2 ≤ ((buildCandidates input).filter (fun p =>
    decide (p.inReplyToId = some pid ∧
      p.account.id = input.seedPost.account.id))).length

/-- Counterexample to C2: with seed by author `A` and two children of the
seed, one by `A` and one by a different author `B`, the code sets
`hasAlternateBranches = true` (it counts registered children regardless of
author), while only one same-author child exists, so the claimed
equivalence fails. -/
theorem hasAlternateBranches_sameAuthor_counterexample :
    ¬ (((buildMainlineThread (fun _ => none)
          ⟨mkPost "s" "" none "A", [],
            [mkPost "d1" "" (some "s") "A",
             mkPost "d2" "" (some "s") "B"]⟩).hasAlternateBranches = true) ↔
        specAlternateBranches
          ⟨mkPost "s" "" none "A", [],
            [mkPost "d1" "" (some "s") "A",
             mkPost "d2" "" (some "s") "B"]⟩) := by
  intro h
  obtain ⟨pid, hp⟩ := h.mp (by decide)
  by_cases hq : pid = "s"
  · subst hq
    exact absurd hp (by decide)
  · have hne : ¬(("s" : String) = pid) := fun hh => hq hh.symm
    revert hp
    simp [buildCandidates, mkPost, List.filter_cons, List.filter_nil, hne]

/-! ### Key-uniqueness machinery for the amended C2 and for C3 -/

theorem mem_keys_mapSet {β : Type} {m : List (String × β)} {k x : String} {v : β}
    (h : x ∈ (mapSet m k v).map Prod.fst) : x = k ∨ x ∈ m.map Prod.fst := by
  induction m with
  | nil => simpa [mapSet] using h
  | cons kv rest ih =>
    by_cases hk : kv.1 = k
    · rw [show kv = (kv.1, kv.2) from rfl] at h
      simp only [mapSet, if_pos hk, List.map_cons, List.mem_cons] at h
      rcases h with h | h
      · exact Or.inl h
      · exact Or.inr (by simp only [List.map_cons, List.mem_cons]; exact Or.inr h)
    · rw [show kv = (kv.1, kv.2) from rfl] at h
      simp only [mapSet, if_neg hk, List.map_cons, List.mem_cons] at h
      rcases h with h | h
      · exact Or.inr (by simp [h])
      · rcases ih h with h' | h'
        · exact Or.inl h'
        · exact Or.inr (by simp only [List.map_cons, List.mem_cons]; exact Or.inr h')

theorem mapSet_keys_nodup {β : Type} {m : List (String × β)} {k : String} {v : β}
    (h : (m.map Prod.fst).Nodup) : ((mapSet m k v).map Prod.fst).Nodup := by
  induction m with
  | nil => simp [mapSet]
  | cons kv rest ih =>
    rw [show kv = (kv.1, kv.2) from rfl] at h ⊢
    simp only [List.map_cons, List.nodup_cons] at h
    by_cases hk : kv.1 = k
    · simp only [mapSet, if_pos hk, List.map_cons, List.nodup_cons]
      exact ⟨hk ▸ h.1, h.2⟩
    · simp only [mapSet, if_neg hk, List.map_cons, List.nodup_cons]
      refine ⟨?_, ih h.2⟩
      intro hmem
      rcases mem_keys_mapSet hmem with h' | h'
      · exact hk h'
      · exact h.1 h'

theorem candidateIndex_keys_nodup (input : BuildInput) :
    ((candidateIndex input).map Prod.fst).Nodup := by
  unfold candidateIndex
  generalize buildCandidates input = l
  have : ∀ (m : List (String × Post)), (m.map Prod.fst).Nodup →
      ((l.foldl (fun acc p => mapSet acc p.id p) m).map Prod.fst).Nodup := by
    induction l with
    | nil => intro m hm; simpa using hm
    | cons p rest ih =>
      intro m hm
      exact ih (mapSet m p.id p) (mapSet_keys_nodup hm)
  simpa using this [] (by simp)

theorem mem_keys_bucketAdd {β : Type} {m : List (String × List β)} {k x : String}
    {v : β} (h : x ∈ (bucketAdd m k v).map Prod.fst) :
    x = k ∨ x ∈ m.map Prod.fst := by
  induction m with
  | nil => simpa [bucketAdd] using h
  | cons kb rest ih =>
    obtain ⟨k₀, b⟩ := kb
    by_cases hk : k₀ = k
    · simp only [bucketAdd, if_pos hk, List.map_cons, List.mem_cons] at h
      rcases h with h | h
      · exact Or.inl h
      · exact Or.inr (by simp only [List.map_cons, List.mem_cons]; exact Or.inr h)
    · simp only [bucketAdd, if_neg hk, List.map_cons, List.mem_cons] at h
      rcases h with h | h
      · exact Or.inr (by simp [h])
      · rcases ih h with h' | h'
        · exact Or.inl h'
        · exact Or.inr (by simp only [List.map_cons, List.mem_cons]; exact Or.inr h')

theorem bucketAdd_keys_nodup {β : Type} {m : List (String × List β)} {k : String}
    {v : β} (h : (m.map Prod.fst).Nodup) :
    ((bucketAdd m k v).map Prod.fst).Nodup := by
  induction m with
  | nil => simp [bucketAdd]
  | cons kb rest ih =>
    obtain ⟨k₀, b⟩ := kb
    simp only [List.map_cons, List.nodup_cons] at h
    by_cases hk : k₀ = k
    · simp only [bucketAdd, if_pos hk, List.map_cons, List.nodup_cons]
      exact ⟨hk ▸ h.1, h.2⟩
    · simp only [bucketAdd, if_neg hk, List.map_cons, List.nodup_cons]
      refine ⟨?_, ih h.2⟩
      intro hmem
      rcases mem_keys_bucketAdd hmem with h' | h'
      · exact hk h'
      · exact h.1 h'

theorem childrenRaw_keys_nodup (byId : List (String × Post)) :
    ((childrenRaw byId).map Prod.fst).Nodup := by
  unfold childrenRaw
  generalize mapValues byId = l
  have : ∀ (cm : List (String × List Post)), (cm.map Prod.fst).Nodup →
      ((l.foldl (registerChild byId) cm).map Prod.fst).Nodup := by
    induction l with
    | nil => intro cm hcm; simpa using hcm
    | cons p rest ih =>
      intro cm hcm
      refine ih (registerChild byId cm p) ?_
      unfold registerChild
      cases p.inReplyToId with
      | none => exact hcm
      | some pid =>
        show (List.map Prod.fst (if pid = "" ∨ ¬ mapHasKey byId pid then cm
          else bucketAdd cm pid p)).Nodup
        by_cases hskip : pid = "" ∨ ¬ mapHasKey byId pid
        · rw [if_pos hskip]; exact hcm
        · rw [if_neg hskip]; exact bucketAdd_keys_nodup hcm
  simpa using this [] (by simp)

theorem mapGet_of_mem_nodup {β : Type} {m : List (String × β)} {k : String} {v : β}
    (hnd : (m.map Prod.fst).Nodup) (h : (k, v) ∈ m) : mapGet m k = some v := by
  induction m with
  | nil => simp at h
  | cons kv rest ih =>
    simp only [List.map_cons, List.nodup_cons] at hnd
    rcases List.mem_cons.mp h with h' | h'
    · rw [← h']
      simp [mapGet]
    · have hne : kv.1 ≠ k := by
        intro he
        exact hnd.1 (he ▸ List.mem_map.mpr ⟨(k, v), h', rfl⟩)
      rw [show kv = (kv.1, kv.2) from rfl]
      simp only [mapGet, if_neg hne]
      exact ih hnd.2 h'

/-- C2, amended: `hasAlternateBranches` is true iff some non-empty parent id
present in the id-deduplicated candidate index has at least two registered
children there — children of any author (`childPred` is the code's
registration condition). -/
theorem hasAlternateBranches_iff_two_children (dp : String → Option Int)
    (input : BuildInput) :
    ((buildMainlineThread dp input).hasAlternateBranches = true) ↔
      ∃ pid, 2 ≤ ((mapValues (candidateIndex input)).filter
        (childPred (candidateIndex input) pid)).length := by
  have hflag : (buildMainlineThread dp input).hasAlternateBranches =
      (childrenSorted dp (candidateIndex input)).any
        (fun kb => 1 < kb.2.length) := rfl
  rw [hflag, List.any_eq_true]
  constructor
  · rintro ⟨⟨pid, b⟩, hmem, hlen⟩
    simp only [decide_eq_true_eq] at hlen
    -- recover the unsorted bucket underlying this entry
    obtain ⟨⟨pid', b₀⟩, hmem₀, heq⟩ := List.mem_map.mp hmem
    obtain ⟨hpid, hb⟩ := Prod.mk.injEq .. ▸ heq
    have hget : mapGet (childrenRaw (candidateIndex input)) pid' = some b₀ :=
      mapGet_of_mem_nodup (childrenRaw_keys_nodup _) hmem₀
    refine ⟨pid', ?_⟩
    rw [← bucketGet_childrenRaw]
    have hbg : bucketGet (childrenRaw (candidateIndex input)) pid' = b₀ := by
      simp [bucketGet, hget]
    rw [hbg]
    have hlenb : b.length = b₀.length := by
      rw [← hb]
      exact (perm_sortByCmp (cmpLe dp) b₀).length_eq
    omega
  · rintro ⟨pid, hlen⟩
    rw [← bucketGet_childrenRaw] at hlen
    set b₀ := bucketGet (childrenRaw (candidateIndex input)) pid with hb₀
    cases hget : mapGet (childrenRaw (candidateIndex input)) pid with
    | none =>
      rw [hb₀] at hlen
      simp [bucketGet, hget] at hlen
    | some b =>
      have hbb : b₀ = b := by simp [hb₀, bucketGet, hget]
      refine ⟨(pid, sortByCmp (cmpLe dp) b), ?_, ?_⟩
      · exact List.mem_map.mpr ⟨(pid, b), mapGet_mem hget, rfl⟩
      · simp only [decide_eq_true_eq]
        have := (perm_sortByCmp (cmpLe dp) b).length_eq
        rw [hbb] at hlen
        omega

/-! ## Claim C3: comparator characterization and the tie-break -/

theorem char_eq_of_toNat_eq {a b : Char} (h : a.toNat = b.toNat) : a = b :=
  Char.eq_of_val_eq (UInt32.ext h)

theorem charListCompare_cons_nonpos_iff (a b : Char) (as bs : List Char) :
    charListCompare (a :: as) (b :: bs) ≤ 0 ↔
      (a.toNat < b.toNat ∨
        (a.toNat = b.toNat ∧ charListCompare as bs ≤ 0)) := by
  simp only [charListCompare]
  by_cases h1 : a.toNat < b.toNat
  · simp [h1]
  · by_cases h2 : b.toNat < a.toNat
    · rw [if_neg h1, if_pos h2]
      constructor
      · intro h; omega
      · rintro (h | ⟨h, _⟩) <;> omega
    · have heq : a.toNat = b.toNat := by omega
      rw [if_neg h1, if_neg h2]
      constructor
      · intro h; exact Or.inr ⟨heq, h⟩
      · rintro (h | ⟨_, h⟩)
        · omega
        · exact h

theorem charListCompare_total (as : List Char) :
    ∀ bs, charListCompare as bs ≤ 0 ∨ charListCompare bs as ≤ 0 := by
  induction as with
  | nil =>
    intro bs
    cases bs <;> simp [charListCompare]
  | cons a as' ih =>
    intro bs
    cases bs with
    | nil => simp [charListCompare]
    | cons b bs' =>
      rw [charListCompare_cons_nonpos_iff, charListCompare_cons_nonpos_iff]
      rcases Nat.lt_trichotomy a.toNat b.toNat with h | h | h
      · exact Or.inl (Or.inl h)
      · rcases ih bs' with h' | h'
        · exact Or.inl (Or.inr ⟨h, h'⟩)
        · exact Or.inr (Or.inr ⟨h.symm, h'⟩)
      · exact Or.inr (Or.inl h)

theorem charListCompare_trans_nonpos (as : List Char) :
    ∀ bs cs, charListCompare as bs ≤ 0 → charListCompare bs cs ≤ 0 →
      charListCompare as cs ≤ 0 := by
  induction as with
  | nil =>
    intro bs cs _ _
    cases cs <;> simp [charListCompare]
  | cons a as' ih =>
    intro bs cs h1 h2
    cases bs with
    | nil => simp [charListCompare] at h1
    | cons b bs' =>
      cases cs with
      | nil => simp [charListCompare] at h2
      | cons c cs' =>
        rw [charListCompare_cons_nonpos_iff] at h1 h2 ⊢
        rcases h1 with h1 | ⟨h1e, h1r⟩
        · rcases h2 with h2 | ⟨h2e, _⟩
          · exact Or.inl (by omega)
          · exact Or.inl (by omega)
        · rcases h2 with h2 | ⟨h2e, h2r⟩
          · exact Or.inl (by omega)
          · exact Or.inr ⟨by omega, ih bs' cs' h1r h2r⟩

theorem charListCompare_eq_zero_iff (as : List Char) :
    ∀ bs, charListCompare as bs = 0 ↔ as = bs := by
  induction as with
  | nil => intro bs; cases bs <;> simp [charListCompare]
  | cons a as' ih =>
    intro bs
    cases bs with
    | nil => simp [charListCompare]
    | cons b bs' =>
      simp only [charListCompare]
      by_cases h1 : a.toNat < b.toNat
      · rw [if_pos h1]
        constructor
        · intro h; omega
        · rintro h
          injection h with hh _
          rw [hh] at h1
          omega
      · by_cases h2 : b.toNat < a.toNat
        · rw [if_neg h1, if_pos h2]
          constructor
          · intro h; omega
          · rintro h
            injection h with hh _
            rw [hh] at h2
            omega
        · have heq : a = b := char_eq_of_toNat_eq (by omega)
          rw [if_neg h1, if_neg h2, ih bs']
          constructor
          · intro h; rw [heq, h]
          · intro h
            injection h

theorem compareByDate_nonpos_iff (dp : String → Option Int) (a b : Post) :
    compareByDate dp a b ≤ 0 ↔
      (asTimestamp dp a.createdAt < asTimestamp dp b.createdAt ∨
        (asTimestamp dp a.createdAt = asTimestamp dp b.createdAt ∧
          charListCompare a.id.data b.id.data ≤ 0)) := by
  unfold compareByDate localeCompare
  by_cases h : asTimestamp dp a.createdAt - asTimestamp dp b.createdAt ≠ 0
  · simp only [if_pos h]
    constructor
    · intro hle; exact Or.inl (by omega)
    · rintro (h' | ⟨h', _⟩) <;> omega
  · simp only [if_neg h]
    constructor
    · intro hle; exact Or.inr ⟨by omega, hle⟩
    · rintro (h' | ⟨_, h'⟩)
      · omega
      · exact h'

theorem cmpLe_total (dp : String → Option Int) (a b : Post) :
    cmpLe dp a b = true ∨ cmpLe dp b a = true := by
  unfold cmpLe
  simp only [decide_eq_true_eq]
  rw [compareByDate_nonpos_iff, compareByDate_nonpos_iff]
  rcases lt_trichotomy (asTimestamp dp a.createdAt) (asTimestamp dp b.createdAt)
    with h | h | h
  · exact Or.inl (Or.inl h)
  · rcases charListCompare_total a.id.data b.id.data with h' | h'
    · exact Or.inl (Or.inr ⟨h, h'⟩)
    · exact Or.inr (Or.inr ⟨h.symm, h'⟩)
  · exact Or.inr (Or.inl h)

theorem cmpLe_trans (dp : String → Option Int) (a b c : Post) :
    cmpLe dp a b = true → cmpLe dp b c = true → cmpLe dp a c = true := by
  unfold cmpLe
  simp only [decide_eq_true_eq]
  rw [compareByDate_nonpos_iff, compareByDate_nonpos_iff, compareByDate_nonpos_iff]
  rintro (h1 | ⟨h1e, h1r⟩) (h2 | ⟨h2e, h2r⟩)
  · exact Or.inl (by omega)
  · exact Or.inl (by omega)
  · exact Or.inl (by omega)
  · exact Or.inr ⟨by omega, charListCompare_trans_nonpos _ _ _ h1r h2r⟩

theorem candidateIndex_entry_id (input : BuildInput) :
    ∀ kv ∈ candidateIndex input, kv.2.id = kv.1 := by
  intro kv hkv
  exact (foldl_mapSet_invariant
    (fun kv => kv.2 ∈ buildCandidates input ∧ kv.2.id = kv.1)
    (by simp) (fun p hp => ⟨hp, rfl⟩) kv hkv).2

theorem candidateIndex_values_ids_nodup (input : BuildInput) :
    ((mapValues (candidateIndex input)).map Post.id).Nodup := by
  have heq : (mapValues (candidateIndex input)).map Post.id =
      (candidateIndex input).map Prod.fst := by
    unfold mapValues
    rw [List.map_map]
    exact List.map_congr_left (fun kv hkv => candidateIndex_entry_id input kv hkv)
  rw [heq]
  exact candidateIndex_keys_nodup input

theorem childrenSorted_bucket_ids_nodup (dp : String → Option Int)
    (input : BuildInput) (pid : String) :
    ((bucketGet (childrenSorted dp (candidateIndex input)) pid).map Post.id).Nodup := by
  rw [bucketGet_childrenSorted]
  rw [List.Perm.nodup_iff
    ((perm_sortByCmp (cmpLe dp)
      (bucketGet (childrenRaw (candidateIndex input)) pid)).map Post.id)]
  rw [bucketGet_childrenRaw]
  exact (candidateIndex_values_ids_nodup input).sublist
    ((List.filter_sublist _).map Post.id)

/-- "a's id is lexicographically smaller than b's": code-point comparison. -/
def idLexLt (a b : String) : Prop := charListCompare a.data b.data < 0

instance (a b : String) : Decidable (idLexLt a b) := by
  unfold idLexLt; infer_instance

/-- C3: when every registered child of a parent has the same normalized
timestamp (identical `createdAt`, or all unparseable and normalized to 0),
the head of the sorted child bucket — the post `children[0]` that the
downward walk selects as the mainline child — has the lexicographically
smallest id, and the walk indeed appends exactly that post when it reaches
the parent. -/
theorem mainlineChild_tiebreak (dp : String → Option Int) (input : BuildInput)
    (pid : String) (m : Post) (rest : List Post)
    (hbucket : bucketGet (childrenSorted dp (candidateIndex input)) pid = m :: rest)
    (hlen : 2 ≤ (m :: rest).length)
    (hts : ∀ c ∈ m :: rest, ∀ c' ∈ m :: rest,
      asTimestamp dp c.createdAt = asTimestamp dp c'.createdAt) :
    (∀ c ∈ rest, idLexLt m.id c.id) ∧
    (∀ (visited : List String) (cursor : Post) (fuel : Nat),
      cursor.id = pid → m.id ∉ visited →
      walkDown (childrenSorted dp (candidateIndex input)) visited cursor (fuel + 1) =
        m :: walkDown (childrenSorted dp (candidateIndex input))
          (m.id :: visited) m fuel) := by
  constructor
  · intro c hc
    have hpair := @pairwise_sortByCmp Post (cmpLe dp)
      (bucketGet (childrenRaw (candidateIndex input)) pid)
      (cmpLe_total dp) (cmpLe_trans dp)
    rw [← bucketGet_childrenSorted, hbucket] at hpair
    have hmc : cmpLe dp m c = true := (List.pairwise_cons.mp hpair).1 c hc
    have hnd := childrenSorted_bucket_ids_nodup dp input pid
    rw [hbucket] at hnd
    have hne : m.id ≠ c.id := by
      simp only [List.map_cons, List.nodup_cons] at hnd
      intro he
      exact hnd.1 (he ▸ List.mem_map.mpr ⟨c, hc, rfl⟩)
    have hcmp : compareByDate dp m c ≤ 0 := by
      simpa [cmpLe, decide_eq_true_eq] using hmc
    rw [compareByDate_nonpos_iff] at hcmp
    have hteq : asTimestamp dp m.createdAt = asTimestamp dp c.createdAt :=
      hts m (List.mem_cons_self _ _) c (List.mem_cons_of_mem _ hc)
    rcases hcmp with h | ⟨_, h⟩
    · omega
    · unfold idLexLt
      rcases lt_or_eq_of_le h with h' | h'
      · exact h'
      · exfalso
        exact hne (String.ext ((charListCompare_eq_zero_iff _ _).mp h'))
  · intro visited cursor fuel hcur hm
    have hb' : bucketGet (childrenSorted dp (candidateIndex input)) cursor.id =
        m :: rest := by rw [hcur]; exact hbucket
    simp [walkDown, hb', hm]

/-- Witness for C3: two same-timestamp children `db`, `da` of the seed (given
in that order); the sorted bucket heads with `da`, and the walk picks it. -/
theorem mainlineChild_tiebreak_witness :
    idLexLt "da" "db" ∧
    walkDown (childrenSorted (fun _ => none) (candidateIndex
        ⟨mkPost "s" "" none "A", [],
          [mkPost "db" "t" (some "s") "A", mkPost "da" "t" (some "s") "A"]⟩))
        ["s"] (mkPost "s" "" none "A") 3 =
      mkPost "da" "t" (some "s") "A" ::
        walkDown (childrenSorted (fun _ => none) (candidateIndex
          ⟨mkPost "s" "" none "A", [],
            [mkPost "db" "t" (some "s") "A", mkPost "da" "t" (some "s") "A"]⟩))
          ["da", "s"] (mkPost "da" "t" (some "s") "A") 2 := by
  have h := mainlineChild_tiebreak (fun _ => none)
    ⟨mkPost "s" "" none "A", [],
      [mkPost "db" "t" (some "s") "A", mkPost "da" "t" (some "s") "A"]⟩
    "s" (mkPost "da" "t" (some "s") "A") [mkPost "db" "t" (some "s") "A"]
    (by decide) (by decide) (by decide)
  exact ⟨h.1 (mkPost "db" "t" (some "s") "A") (by decide),
    h.2 ["s"] (mkPost "s" "" none "A") 2 rfl (by decide)⟩

/-! ## Resilient fetch layer: Retry-After parsing

`parseRetryAfterMs` appears verbatim in both adapters (part_001:50–66 for
Bluesky and part_001:908–924 for Mastodon); it is embedded once.  The host's
`Number` conversion is `numParse : String → Option ℚ` (`none` = `NaN` or an
infinity, i.e. `Number.isFinite` fails), `Date.parse` is
`dateParse : String → Option Int` (`none` = `NaN`), and `Date.now()` is
`now`. -/

/-- JS `Math.round`: nearest integer, halves toward +∞: `⌊q + 1/2⌋`. -/
def jsRound (q : ℚ) : Int := ⌊q + 1 / 2⌋

/-- `parseRetryAfterMs` (part_001:50–66): `""` is falsy like a missing
header; `MAX_RETRY_AFTER_MS = 60000`. -/
def parseRetryAfterMs (numParse : String → Option ℚ)
    (dateParse : String → Option Int) (now : Int) (value : Option String) : Int :=
  match value with
  | none => 2000
  | some v =>
    if v = "" then 2000
    else
      match numParse v with
      | some q =>
        if 0 ≤ q then min 60000 (max 0 (jsRound (q * 1000)))
        else
          match dateParse v with
          | some d => min 60000 (max 0 (d - now))
          | none => 2000
      | none =>
        match dateParse v with
        | some d => min 60000 (max 0 (d - now))
        | none => 2000

/-- Counterexample to C7 as stated: `Retry-After: -5` is numeric
(`Number("-5") = -5`), so the claim's "numeric ⇒ seconds × 1000 clamped to
[0, 60000]" predicts 0, but the code requires `asNumber >= 0` and falls
through to date parsing, returning the 2000 default when the value is not a
date. -/
theorem parseRetryAfterMs_negative_numeric_counterexample :
    parseRetryAfterMs (fun v => if v = "-5" then some (-5) else none)
        (fun _ => none) 0 (some "-5") = 2000 ∧
      min 60000 (max 0 (jsRound ((-5 : ℚ) * 1000))) = 0 ∧
      (2000 : Int) ≠ 0 := by
  refine ⟨rfl, ?_, by decide⟩
  have h : jsRound ((-5 : ℚ) * 1000) = -5000 := by
    unfold jsRound
    rw [Int.floor_eq_iff] <;> norm_num
  rw [h]
  decide

/-- C7, amended: the Retry-After header is interpreted as a delay in seconds
(× 1000, rounded, clamped to [0, 60000]) only when it is numeric AND
non-negative; otherwise it is tried as an HTTP date, yielding
`date − now` clamped to [0, 60000]; absent or unparseable-either-way values
yield 2000.  In particular "5" ↦ 5000 and a missing header ↦ 2000. -/
theorem parseRetryAfterMs_spec (numParse : String → Option ℚ)
    (dateParse : String → Option Int) (now : Int) :
    (parseRetryAfterMs numParse dateParse now none = 2000) ∧
    (∀ v q, v ≠ "" → numParse v = some q → 0 ≤ q →
      parseRetryAfterMs numParse dateParse now (some v) =
        min 60000 (max 0 (jsRound (q * 1000)))) ∧
    (∀ v d, v ≠ "" → numParse v = none → dateParse v = some d →
      parseRetryAfterMs numParse dateParse now (some v) =
        min 60000 (max 0 (d - now))) ∧
    (∀ v q d, v ≠ "" → numParse v = some q → q < 0 → dateParse v = some d →
      parseRetryAfterMs numParse dateParse now (some v) =
        min 60000 (max 0 (d - now))) ∧
    (∀ v, v ≠ "" → numParse v = none → dateParse v = none →
      parseRetryAfterMs numParse dateParse now (some v) = 2000) ∧
    (∀ v q, v ≠ "" → numParse v = some q → q < 0 → dateParse v = none →
      parseRetryAfterMs numParse dateParse now (some v) = 2000) ∧
    (numParse "5" = some 5 →
      parseRetryAfterMs numParse dateParse now (some "5") = 5000) := by
  refine ⟨rfl, ?_, ?_, ?_, ?_, ?_, ?_⟩
  · intro v q hv hq hge
    simp [parseRetryAfterMs, hv, hq, hge]
  · intro v d hv hq hd
    simp [parseRetryAfterMs, hv, hq, hd]
  · intro v q d hv hq hneg hd
    simp [parseRetryAfterMs, hv, hq, hd, not_le.mpr hneg]
  · intro v hv hq hd
    simp [parseRetryAfterMs, hv, hq, hd]
  · intro v q hv hq hneg hd
    simp [parseRetryAfterMs, hv, hq, hd, not_le.mpr hneg]
  · intro h5
    have hr : jsRound ((5 : ℚ) * 1000) = 5000 := by
      unfold jsRound
      rw [Int.floor_eq_iff] <;> norm_num
    simp [parseRetryAfterMs, h5, hr]

/-- Witness for C7 (amended) at a concrete host model. -/
theorem parseRetryAfterMs_spec_witness :
    parseRetryAfterMs (fun v => if v = "5" then some 5 else none)
        (fun v => if v = "D" then some 7000 else none) 1000 none = 2000 ∧
    parseRetryAfterMs (fun v => if v = "5" then some 5 else none)
        (fun v => if v = "D" then some 7000 else none) 1000 (some "5") = 5000 ∧
    parseRetryAfterMs (fun v => if v = "5" then some 5 else none)
        (fun v => if v = "D" then some 7000 else none) 1000 (some "D") =
      min 60000 (max 0 ((7000 : Int) - 1000)) ∧
    parseRetryAfterMs (fun v => if v = "5" then some 5 else none)
        (fun v => if v = "D" then some 7000 else none) 1000 (some "zz") = 2000 := by
  have h := parseRetryAfterMs_spec (fun v => if v = "5" then some 5 else none)
    (fun v => if v = "D" then some 7000 else none) 1000
  exact ⟨h.1, h.2.2.2.2.2.2 rfl,
    h.2.2.1 "D" 7000 (by decide) rfl rfl,
    h.2.2.2.2.1 "zz" (by decide) rfl rfl⟩

/-! ## URL parsing

`new URL(...)` is a host builtin; `urlParseModel` models the WHATWG parser
for the `scheme://host/path?query#fragment` shapes this program exercises
(no userinfo-preserving, port-preserving, path-normalizing or punycode
behavior is needed by any claim: the model lowercases scheme and host, drops
userinfo, port, query and fragment, and keeps the path verbatim). -/

structure UrlParts where
  protocol : String
  hostname : String
  pathname : String
  deriving Repr, DecidableEq

/-- ASCII lowercasing, as applied by the URL parser to scheme and host. -/
def asciiToLower (c : Char) : Char :=
  if 'A' ≤ c ∧ c ≤ 'Z' then Char.ofNat (c.toNat + 32) else c

/-- Split at the first occurrence of `t`, dropping it. -/
def splitAtChar : List Char → Char → Option (List Char × List Char)
  | [], _ => none
  | c :: rest, t =>
    if c = t then some ([], rest)
    else
      match splitAtChar rest t with
      | none => none
      | some (a, b) => some (c :: a, b)

/-- Longest prefix containing none of `stops`, plus the remainder. -/
def spanUntil (stops : List Char) : List Char → List Char × List Char
  | [] => ([], [])
  | c :: rest =>
    if c ∈ stops then ([], c :: rest)
    else
      let ab := spanUntil stops rest
      (c :: ab.1, ab.2)

/-- The suffix after the last `'@'` (the whole list when there is none). -/
def afterLastAt (cs : List Char) : List Char :=
  (cs.reverse.takeWhile (fun c => c ≠ '@')).reverse

def isSchemeChar (c : Char) : Bool :=
  c.isAlpha || c.isDigit || c = '+' || c = '-' || c = '.'

def urlParseModel (s : String) : Option UrlParts :=
  match splitAtChar s.data ':' with
  | none => none
  | some (schemeCs, rest) =>
    if schemeCs.isEmpty || !schemeCs.all isSchemeChar then none
    else if rest.take 2 = ['/', '/'] then
      let rest2 := rest.drop 2
      let ap := spanUntil ['/', '?', '#'] rest2
      let hostPort := afterLastAt ap.1
      let host := (spanUntil [':'] hostPort).1.map asciiToLower
      if host.isEmpty then none
      else
        let path :=
          if ap.2.head? = some '/' then (spanUntil ['?', '#'] ap.2).1 else ['/']
        some ⟨String.mk (schemeCs.map asciiToLower) ++ ":",
          String.mk host, String.mk path⟩
    else none

/-! ### Utility lemmas about the URL model -/

theorem spanUntil_fst_not_mem (stops : List Char) (cs : List Char) :
    ∀ c ∈ (spanUntil stops cs).1, c ∉ stops := by
  induction cs with
  | nil => simp [spanUntil]
  | cons c rest ih =>
    by_cases h : c ∈ stops
    · simp [spanUntil, h]
    · simp only [spanUntil, if_neg h]
      intro x hx
      rcases List.mem_cons.mp hx with hx' | hx'
      · rw [hx']; exact h
      · exact ih x hx'

theorem spanUntil_fst_sublist (stops : List Char) (cs : List Char) :
    ∀ c ∈ (spanUntil stops cs).1, c ∈ cs := by
  induction cs with
  | nil => simp [spanUntil]
  | cons c rest ih =>
    by_cases h : c ∈ stops
    · simp [spanUntil, h]
    · simp only [spanUntil, if_neg h]
      intro x hx
      rcases List.mem_cons.mp hx with hx' | hx'
      · simp [hx']
      · exact List.mem_cons_of_mem _ (ih x hx')

theorem spanUntil_all (stops : List Char) (cs : List Char)
    (h : ∀ c ∈ cs, c ∉ stops) : spanUntil stops cs = (cs, []) := by
  induction cs with
  | nil => simp [spanUntil]
  | cons c rest ih =>
    have hc : c ∉ stops := h c (List.mem_cons_self _ _)
    simp only [spanUntil, if_neg hc]
    rw [ih (fun x hx => h x (List.mem_cons_of_mem _ hx))]

theorem spanUntil_append_stop (stops : List Char) (a b : List Char)
    (ha : ∀ c ∈ a, c ∉ stops) (hb : ∃ s bs, b = s :: bs ∧ s ∈ stops) :
    spanUntil stops (a ++ b) = (a, b) := by
  induction a with
  | nil =>
    obtain ⟨s, bs, rfl, hs⟩ := hb
    simp [spanUntil, hs]
  | cons c rest ih =>
    have hc : c ∉ stops := ha c (List.mem_cons_self _ _)
    simp only [List.cons_append, spanUntil, if_neg hc, List.append_eq]
    rw [ih (fun x hx => ha x (List.mem_cons_of_mem _ hx))]

theorem afterLastAt_no_at (cs : List Char) (h : ∀ c ∈ cs, c ≠ '@') :
    afterLastAt cs = cs := by
  unfold afterLastAt
  rw [List.takeWhile_eq_self_iff.mpr]
  · exact List.reverse_reverse cs
  · intro c hc
    simp only [decide_eq_true_eq]
    exact h c (List.mem_reverse.mp hc)

theorem afterLastAt_mem (cs : List Char) : ∀ c ∈ afterLastAt cs, c ∈ cs := by
  intro c hc
  unfold afterLastAt at hc
  rw [List.mem_reverse] at hc
  exact List.mem_reverse.mp ((List.takeWhile_sublist _).mem hc)

theorem afterLastAt_ne_at (cs : List Char) : ∀ c ∈ afterLastAt cs, c ≠ '@' := by
  intro c hc
  unfold afterLastAt at hc
  rw [List.mem_reverse] at hc
  simpa using List.mem_takeWhile_imp hc

theorem asciiToLower_fixed (c : Char) (h : ¬('A' ≤ c ∧ c ≤ 'Z')) :
    asciiToLower c = c := by
  simp [asciiToLower, h]

theorem char_toNat_ofNat {n : Nat} (h : n < 55296) : (Char.ofNat n).toNat = n := by
  unfold Char.ofNat
  split
  · rfl
  · rename_i hh
    exact absurd (Or.inl (by exact_mod_cast h)) hh

theorem asciiToLower_idem (c : Char) :
    asciiToLower (asciiToLower c) = asciiToLower c := by
  by_cases h : 'A' ≤ c ∧ c ≤ 'Z'
  · have h1 : 65 ≤ c.toNat := h.1
    have h2 : c.toNat ≤ 90 := h.2
    have hlow : asciiToLower c = Char.ofNat (c.toNat + 32) := by
      simp [asciiToLower, h]
    rw [hlow]
    apply asciiToLower_fixed
    rintro ⟨ha, hz⟩
    have := (show ((Char.ofNat (c.toNat + 32)).toNat ≤ 90) from hz)
    rw [char_toNat_ofNat (by omega)] at this
    omega
  · rw [asciiToLower_fixed c h, asciiToLower_fixed c h]

/-- Character-level well-formedness of the hostname produced by the model. -/
def hostCharOk (c : Char) : Prop :=
  c ≠ ':' ∧ c ≠ '/' ∧ c ≠ '?' ∧ c ≠ '#' ∧ c ≠ '@' ∧ asciiToLower c = c

theorem asciiToLower_toNat_of_upper (c : Char) (h : 'A' ≤ c ∧ c ≤ 'Z') :
    (asciiToLower c).toNat = c.toNat + 32 := by
  have h2 : c.toNat ≤ 90 := h.2
  simp only [asciiToLower, if_pos h]
  exact char_toNat_ofNat (by omega)

theorem asciiToLower_ne_special (c d : Char) (hdlt : d.toNat < 97)
    (hc : c ≠ d) : asciiToLower c ≠ d := by
  by_cases h : 'A' ≤ c ∧ c ≤ 'Z'
  · intro he
    have hto := asciiToLower_toNat_of_upper c h
    rw [he] at hto
    have h1 : 65 ≤ c.toNat := h.1
    omega
  · rw [asciiToLower_fixed c h]; exact hc

theorem urlParseModel_host_wf {s : String} {url : UrlParts}
    (h : urlParseModel s = some url) :
    url.hostname.data ≠ [] ∧ ∀ c ∈ url.hostname.data, hostCharOk c := by
  unfold urlParseModel at h
  split at h
  · exact absurd h (by simp)
  · rename_i schemeCs rest heq
    split at h
    · exact absurd h (by simp)
    · split at h
      · simp only [] at h
        split at h
        · exact absurd h (by simp)
        · rename_i hemp
          have hurl : url.hostname =
              String.mk ((spanUntil [':']
                (afterLastAt (spanUntil ['/', '?', '#'] (rest.drop 2)).1)).1.map
                  asciiToLower) := by
            have := Option.some.inj h
            rw [← this]
          constructor
          · rw [hurl]
            intro hcon
            apply hemp
            simpa [List.isEmpty_iff] using hcon
          · intro c hc
            rw [hurl] at hc
            obtain ⟨c₀, hc₀, rfl⟩ := List.mem_map.mp hc
            have hnotcolon : c₀ ∉ [':'] :=
              spanUntil_fst_not_mem [':'] _ c₀ hc₀
            have hinHostPort := spanUntil_fst_sublist [':'] _ c₀ hc₀
            have hnotat : c₀ ≠ '@' := afterLastAt_ne_at _ c₀ hinHostPort
            have hinAp := afterLastAt_mem _ c₀ hinHostPort
            have hnotstops : c₀ ∉ (['/', '?', '#'] : List Char) :=
              spanUntil_fst_not_mem _ _ c₀ hinAp
            have hne1 : c₀ ≠ ':' := by simpa using hnotcolon
            have hne2 : c₀ ≠ '/' := fun he => hnotstops (by simp [he])
            have hne3 : c₀ ≠ '?' := fun he => hnotstops (by simp [he])
            have hne4 : c₀ ≠ '#' := fun he => hnotstops (by simp [he])
            refine ⟨?_, ?_, ?_, ?_, ?_, asciiToLower_idem c₀⟩
            · exact asciiToLower_ne_special c₀ ':' (by decide) hne1
            · exact asciiToLower_ne_special c₀ '/' (by decide) hne2
            · exact asciiToLower_ne_special c₀ '?' (by decide) hne3
            · exact asciiToLower_ne_special c₀ '#' (by decide) hne4
            · exact asciiToLower_ne_special c₀ '@' (by decide) hnotat
      · exact absurd h (by simp)

theorem urlParseModel_path_wf {s : String} {url : UrlParts}
    (h : urlParseModel s = some url) :
    (∃ p', url.pathname.data = '/' :: p') ∧
      ∀ c ∈ url.pathname.data, c ≠ '?' ∧ c ≠ '#' := by
  unfold urlParseModel at h
  split at h
  · exact absurd h (by simp)
  · split at h
    · exact absurd h (by simp)
    · split at h
      · simp only [] at h
        split at h
        · exact absurd h (by simp)
        · rename_i rest heq hs hpre hemp
          have hurl : url.pathname = String.mk
              (if (spanUntil ['/', '?', '#'] (rest.drop 2)).2.head? = some '/' then
                (spanUntil ['?', '#'] (spanUntil ['/', '?', '#'] (rest.drop 2)).2).1
              else ['/']) := by
            have := Option.some.inj h
            rw [← this]
          by_cases hp : (spanUntil ['/', '?', '#'] (rest.drop 2)).2.head? = some '/'
          · rw [if_pos hp] at hurl
            obtain ⟨t, ht⟩ : ∃ t,
                (spanUntil ['/', '?', '#'] (rest.drop 2)).2 = '/' :: t := by
              cases hcase : (spanUntil ['/', '?', '#'] (rest.drop 2)).2 with
              | nil => rw [hcase] at hp; simp at hp
              | cons c cs =>
                rw [hcase] at hp
                simp only [List.head?_cons, Option.some.injEq] at hp
                exact ⟨cs, by rw [hp]⟩
            constructor
            · rw [hurl, ht]
              refine ⟨(spanUntil ['?', '#'] t).1, ?_⟩
              simp [spanUntil]
            · intro c hc
              rw [hurl] at hc
              have := spanUntil_fst_not_mem ['?', '#'] _ c hc
              constructor
              · intro he; exact this (by simp [he])
              · intro he; exact this (by simp [he])
          · rw [if_neg hp] at hurl
            constructor
            · exact ⟨[], by rw [hurl]⟩
            · intro c hc
              rw [hurl] at hc
              simp only [List.mem_singleton] at hc
              exact ⟨by simp [hc], by simp [hc]⟩
      · exact absurd h (by simp)

theorem urlParseModel_reconstruct (host path : List Char)
    (hh : host ≠ [])
    (hhc : ∀ c ∈ host, hostCharOk c)
    (hp : ∃ p', path = '/' :: p')
    (hpc : ∀ c ∈ path, c ≠ '?' ∧ c ≠ '#') :
    urlParseModel (String.mk ("https://".data ++ host ++ path)) =
      some ⟨"https:", String.mk host, String.mk path⟩ := by
  obtain ⟨p', rfl⟩ := hp
  have hsplit : splitAtChar ("https://".data ++ host ++ ('/' :: p')) ':' =
      some ("https".data, '/' :: '/' :: (host ++ ('/' :: p'))) := by
    simp [splitAtChar, List.cons_append, List.nil_append]
  unfold urlParseModel
  rw [show (String.mk ("https://".data ++ host ++ ('/' :: p'))).data =
    "https://".data ++ host ++ ('/' :: p') from rfl]
  rw [List.append_assoc] at hsplit ⊢
  rw [hsplit]
  simp only []
  rw [if_neg (by decide)]
  rw [if_pos (by simp)]
  simp only [List.drop_succ_cons, List.drop_zero]
  have hspan1 : spanUntil ['/', '?', '#'] (host ++ ('/' :: p')) =
      (host, '/' :: p') := by
    refine spanUntil_append_stop _ _ _ ?_ ⟨'/', p', rfl, by simp⟩
    intro c hc
    obtain ⟨h1, h2, h3, h4, h5, h6⟩ := hhc c hc
    simp [h2, h3, h4]
  rw [hspan1]
  have hafter : afterLastAt host = host := by
    refine afterLastAt_no_at host ?_
    intro c hc
    exact (hhc c hc).2.2.2.2.1
  simp only [hafter]
  have hspan2 : spanUntil [':'] host = (host, []) := by
    refine spanUntil_all _ _ ?_
    intro c hc
    simp [(hhc c hc).1]
  rw [hspan2]
  have hmap : host.map asciiToLower = host := by
    rw [List.map_congr_left (fun c hc => (hhc c hc).2.2.2.2.2)]
    simp
  simp only [hmap]
  rw [if_neg (by simpa [List.isEmpty_iff] using hh)]
  rw [if_pos (by simp)]
  have hspan3 : spanUntil ['?', '#'] ('/' :: p') = ('/' :: p', []) := by
    refine spanUntil_all _ _ ?_
    intro c hc
    obtain ⟨h1, h2⟩ := hpc c hc
    simp [h1, h2]
  rw [hspan3]
  have hproto : String.mk ("https".data.map asciiToLower) ++ ":" = "https:" := by
    decide
  rw [hproto]

/-- `path.replace(/\\/+$/, "")` (part_001:978). -/
def stripTrailingSlashes (s : String) : String :=
  String.mk (s.data.reverse.dropWhile (fun c => c = '/')).reverse

theorem stripTrailingSlashes_decomp (s : String) :
    ∃ m, s.data = (stripTrailingSlashes s).data ++ m ∧ ∀ c ∈ m, c = '/' := by
  refine ⟨(s.data.reverse.takeWhile (fun c => c = '/')).reverse, ?_, ?_⟩
  · conv_lhs => rw [← List.reverse_reverse s.data,
      ← @List.takeWhile_append_dropWhile Char (fun c => c = '/')
        s.data.reverse]
    rw [List.reverse_append]
    rfl
  · intro c hc
    rw [List.mem_reverse] at hc
    simpa using List.mem_takeWhile_imp hc

theorem dropWhile_dropWhile {α : Type} (p : α → Bool) (l : List α) :
    (l.dropWhile p).dropWhile p = l.dropWhile p := by
  induction l with
  | nil => simp
  | cons a rest ih =>
    by_cases h : p a
    · simpa [List.dropWhile_cons, h] using ih
    · simp [List.dropWhile_cons, h]

theorem stripTrailingSlashes_idem (s : String) :
    stripTrailingSlashes (stripTrailingSlashes s) = stripTrailingSlashes s := by
  unfold stripTrailingSlashes
  rw [show (String.mk (s.data.reverse.dropWhile (fun c => c = '/')).reverse).data =
    (s.data.reverse.dropWhile (fun c => c = '/')).reverse from rfl]
  rw [List.reverse_reverse, dropWhile_dropWhile]

/-! ## Mastodon URL parsing (part_001:972–1000) -/

/-- `String.prototype.includes` over char lists (haystack first). -/
def listIncludes : List Char → List Char → Bool
  | [], needle => needle.isEmpty
  | c :: rest, needle => needle.isPrefixOf (c :: rest) || listIncludes rest needle

/-- Match of `/\/@[^/]+\/\d+$/` anchored at the head of the list.  The
`[^/]+` group cannot cross a `'/'`, so it is forced to be the span up to the
first `'/'`, after which `\/\d+$` must consume the entire remainder. -/
def atUserDigitsHere : List Char → Bool
  | '/' :: '@' :: rest =>
    let ab := spanUntil ['/'] rest
    decide (ab.1 ≠ []) &&
      (match ab.2 with
       | '/' :: ds => decide (ds ≠ []) && ds.all (fun c => c.isDigit)
       | _ => false)
  | _ => false

/-- `/\/@[^/]+\/\d+$/.test(path)`: the anchored match tried at every start. -/
def matchAtUserDigits : List Char → Bool
  | [] => false
  | c :: rest => atUserDigitsHere (c :: rest) || matchAtUserDigits rest

/-- part_001:979–982. -/
def looksLikeStatusPath (path : List Char) : Bool :=
  listIncludes path "/@".data || listIncludes path "/statuses/".data ||
    matchAtUserDigits path

/-- `path.match(/\/(\d+)$/)` (part_001:988): the trailing digit run, which
must be non-empty and preceded by `'/'`. -/
def trailingDigitsId (cs : List Char) : Option (List Char) :=
  let r := cs.reverse
  let ds := r.takeWhile (fun c => c.isDigit)
  if ds.isEmpty then none
  else
    match r.dropWhile (fun c => c.isDigit) with
    | '/' :: _ => some ds.reverse
    | _ => none

structure MastodonParse where
  instanceHost : String
  statusId : String
  canonicalUrl : String
  deriving Repr, DecidableEq

/-- `parseMastodonStatusUrl` (part_001:972–1000), over the URL model;
`none` models the thrown errors. -/
def parseMastodonStatusUrl (inputUrl : String) : Option MastodonParse :=
  match urlParseModel inputUrl with
  | none => none
  | some url =>
    if url.protocol ≠ "https:" ∧ url.protocol ≠ "http:" then none
    else
      let path := stripTrailingSlashes url.pathname
      if ¬ looksLikeStatusPath path.data then none
      else
        match trailingDigitsId path.data with
        | none => none
        | some sid =>
          some ⟨url.hostname, String.mk sid, "https://" ++ url.hostname ++ path⟩

theorem string_data_append (a b : String) : (a ++ b).data = a.data ++ b.data := rfl

theorem string_mk_data (s : String) : String.mk s.data = s := rfl

/-- Mastodon round trip: re-parsing the canonical URL reproduces the whole
parse result. -/
theorem parseMastodonStatusUrl_roundTrip {u : String} {r : MastodonParse}
    (h : parseMastodonStatusUrl u = some r) :
    parseMastodonStatusUrl r.canonicalUrl = some r := by
  unfold parseMastodonStatusUrl at h
  split at h
  · exact absurd h (by simp)
  · rename_i url hurl
    split at h
    · exact absurd h (by simp)
    · rename_i hproto
      simp only [] at h
      split at h
      · exact absurd h (by simp)
      · rename_i hlooks
        split at h
        · exact absurd h (by simp)
        · rename_i sid hsid
          have hr := Option.some.inj h
          obtain ⟨hostne, hostok⟩ := urlParseModel_host_wf hurl
          obtain ⟨⟨pp, hpp⟩, hpath⟩ := urlParseModel_path_wf hurl
          -- facts about the stripped path
          obtain ⟨m, hm, _⟩ := stripTrailingSlashes_decomp url.pathname
          have hsub : ∀ c ∈ (stripTrailingSlashes url.pathname).data,
              c ∈ url.pathname.data := by
            intro c hc
            rw [hm]
            exact List.mem_append.mpr (Or.inl hc)
          have hpathne : (stripTrailingSlashes url.pathname).data ≠ [] := by
            intro hnil
            rw [hnil] at hsid
            simp [trailingDigitsId] at hsid
          have hpathhead : ∃ t, (stripTrailingSlashes url.pathname).data =
              '/' :: t := by
            cases hcase : (stripTrailingSlashes url.pathname).data with
            | nil => exact absurd hcase hpathne
            | cons c cs =>
              refine ⟨cs, ?_⟩
              have : url.pathname.data = c :: (cs ++ m) := by
                rw [hm, hcase]; simp
              rw [hpp] at this
              injection this with hc _
              rw [hc]
          -- re-parse the canonical URL
          have hcanon : ("https://" ++ url.hostname ++
              stripTrailingSlashes url.pathname).data =
              "https://".data ++ url.hostname.data ++
                (stripTrailingSlashes url.pathname).data := rfl
          have hre := urlParseModel_reconstruct url.hostname.data
            (stripTrailingSlashes url.pathname).data hostne hostok hpathhead
            (fun c hc => hpath c (hsub c hc))
          rw [← hr]
          unfold parseMastodonStatusUrl
          rw [show (String.mk ("https://".data ++ url.hostname.data ++
              (stripTrailingSlashes url.pathname).data)) =
            "https://" ++ url.hostname ++ stripTrailingSlashes url.pathname
            from rfl] at hre
          rw [hre]
          simp only []
          rw [if_neg (by simp)]
          rw [string_mk_data, string_mk_data]
          rw [stripTrailingSlashes_idem]
          rw [if_neg (by simpa using hlooks)]
          rw [hsid]

/-! ## `decodeURIComponent` model: percent-unescaping plus UTF-8 decoding -/

/-- UTF-8 encoding of one code point, as a byte list. -/
def utf8Encode (c : Char) : List Nat :=
  let n := c.toNat
  if n < 0x80 then [n]
  else if n < 0x800 then [0xC0 + n / 64, 0x80 + n % 64]
  else if n < 0x10000 then
    [0xE0 + n / 4096, 0x80 + n / 64 % 64, 0x80 + n % 64]
  else
    [0xF0 + n / 262144, 0x80 + n / 4096 % 64, 0x80 + n / 64 % 64, 0x80 + n % 64]

/-- Decode one UTF-8 sequence: the lead byte `b` plus continuation bytes
taken from `rest`, rejecting overlong forms, surrogates and out-of-range
sequences (as `decodeURIComponent` does).  Returns the code point and the
remaining bytes. -/
def utf8Step (b : Nat) (rest : List Nat) : Option (Char × List Nat) :=
  if b < 0x80 then some (Char.ofNat b, rest)
  else if b < 0xC2 then none
  else if b < 0xE0 then
    match rest with
    | b2 :: rest2 =>
      if 0x80 ≤ b2 ∧ b2 < 0xC0 then
        some (Char.ofNat ((b - 0xC0) * 64 + (b2 - 0x80)), rest2)
      else none
    | [] => none
  else if b < 0xF0 then
    match rest with
    | b2 :: b3 :: rest3 =>
      if (0x80 ≤ b2 ∧ b2 < 0xC0) ∧ (0x80 ≤ b3 ∧ b3 < 0xC0) ∧
          (b = 0xE0 → 0xA0 ≤ b2) ∧ (b = 0xED → b2 < 0xA0) then
        some (Char.ofNat ((b - 0xE0) * 4096 + (b2 - 0x80) * 64 + (b3 - 0x80)),
          rest3)
      else none
    | _ => none
  else if b < 0xF5 then
    match rest with
    | b2 :: b3 :: b4 :: rest4 =>
      if (0x80 ≤ b2 ∧ b2 < 0xC0) ∧ (0x80 ≤ b3 ∧ b3 < 0xC0) ∧
          (0x80 ≤ b4 ∧ b4 < 0xC0) ∧
          (b = 0xF0 → 0x90 ≤ b2) ∧ (b = 0xF4 → b2 < 0x90) then
        some (Char.ofNat ((b - 0xF0) * 262144 + (b2 - 0x80) * 4096 +
          (b3 - 0x80) * 64 + (b4 - 0x80)), rest4)
      else none
    | _ => none
  else none

/-- Strict UTF-8 decoding; each step consumes at least one byte, so the
fuel `bs.length` supplied by the wrapper below can never run out. -/
def utf8DecodeGo : Nat → List Nat → Option (List Char)
  | _, [] => some []
  | 0, _ :: _ => none
  | fuel + 1, b :: rest =>
    (utf8Step b rest).bind
      (fun cp => (utf8DecodeGo fuel cp.2).map (fun l => cp.1 :: l))

def utf8Decode (bs : List Nat) : Option (List Char) :=
  utf8DecodeGo bs.length bs

def hexVal (c : Char) : Option Nat :=
  if '0' ≤ c ∧ c ≤ '9' then some (c.toNat - 48)
  else if 'A' ≤ c ∧ c ≤ 'F' then some (c.toNat - 55)
  else if 'a' ≤ c ∧ c ≤ 'f' then some (c.toNat - 87)
  else none

/-- `%XY`: two hex digits after a percent sign, as one byte. -/
def percentHex (rest : List Char) : Option (Nat × List Char) :=
  match rest with
  | h1 :: h2 :: rest2 =>
    match hexVal h1, hexVal h2 with
    | some a, some b => some (16 * a + b, rest2)
    | _, _ => none
  | _ => none

/-- Percent-unescaping to a byte sequence: `%XY` is a literal byte, any
other character contributes its UTF-8 bytes; a `%` not followed by two hex
digits is an error (as `decodeURIComponent` throws).  Fuel as above. -/
def percentBytesGo : Nat → List Char → Option (List Nat)
  | _, [] => some []
  | 0, _ :: _ => none
  | fuel + 1, c :: rest =>
    if c = '%' then
      (percentHex rest).bind
        (fun br => (percentBytesGo fuel br.2).map (fun bs => br.1 :: bs))
    else (percentBytesGo fuel rest).map (fun bs => utf8Encode c ++ bs)

def percentBytes (cs : List Char) : Option (List Nat) :=
  percentBytesGo cs.length cs

/-- Model of the host's `decodeURIComponent` (`none` = throws). -/
def percentDecode (s : String) : Option String :=
  (percentBytes s.data).bind (fun bs => (utf8Decode bs).map String.mk)

theorem char_valid_toNat (c : Char) :
    c.toNat < 0xd800 ∨ (0xdfff < c.toNat ∧ c.toNat < 0x110000) := by
  have h := c.valid
  unfold UInt32.isValidChar Nat.isValidChar at h
  exact h

/-- Decoding one encoded character consumes exactly its bytes. -/
theorem utf8Step_encode (c : Char) (bs : List Nat) :
    ∃ b tail, utf8Encode c = b :: tail ∧
      utf8Step b (tail ++ bs) = some (c, bs) := by
  have hvalid := char_valid_toNat c
  have hofn : Char.ofNat c.toNat = c := Char.ofNat_toNat c
  by_cases h1 : c.toNat < 0x80
  · refine ⟨c.toNat, [], ?_, ?_⟩
    · unfold utf8Encode; simp only []; rw [if_pos h1]
    · simp only [List.nil_append]
      unfold utf8Step
      rw [if_pos h1, hofn]
  · by_cases h2 : c.toNat < 0x800
    · refine ⟨0xC0 + c.toNat / 64, [0x80 + c.toNat % 64], ?_, ?_⟩
      · unfold utf8Encode; simp only []
        rw [if_neg h1, if_pos h2]
      · simp only [List.cons_append, List.nil_append]
        have e1 : ¬(0xC0 + c.toNat / 64 < 0x80) := by omega
        have e2 : ¬(0xC0 + c.toNat / 64 < 0xC2) := by omega
        have e3 : 0xC0 + c.toNat / 64 < 0xE0 := by omega
        have e4 : 0x80 ≤ 0x80 + c.toNat % 64 ∧ 0x80 + c.toNat % 64 < 0xC0 := by
          omega
        have e5 : (0xC0 + c.toNat / 64 - 0xC0) * 64 +
            (0x80 + c.toNat % 64 - 0x80) = c.toNat := by omega
        unfold utf8Step
        rw [if_neg e1, if_neg e2, if_pos e3]
        simp only []
        rw [if_pos e4, e5, hofn]
    · by_cases h3 : c.toNat < 0x10000
      · refine ⟨0xE0 + c.toNat / 4096,
          [0x80 + c.toNat / 64 % 64, 0x80 + c.toNat % 64], ?_, ?_⟩
        · unfold utf8Encode; simp only []
          rw [if_neg h1, if_neg h2, if_pos h3]
        · simp only [List.cons_append, List.nil_append]
          have e1 : ¬(0xE0 + c.toNat / 4096 < 0x80) := by omega
          have e2 : ¬(0xE0 + c.toNat / 4096 < 0xC2) := by omega
          have e3 : ¬(0xE0 + c.toNat / 4096 < 0xE0) := by omega
          have e4 : 0xE0 + c.toNat / 4096 < 0xF0 := by omega
          have e5 : (0x80 ≤ 0x80 + c.toNat / 64 % 64 ∧
                0x80 + c.toNat / 64 % 64 < 0xC0) ∧
              (0x80 ≤ 0x80 + c.toNat % 64 ∧ 0x80 + c.toNat % 64 < 0xC0) ∧
              (0xE0 + c.toNat / 4096 = 0xE0 → 0xA0 ≤ 0x80 + c.toNat / 64 % 64) ∧
              (0xE0 + c.toNat / 4096 = 0xED →
                0x80 + c.toNat / 64 % 64 < 0xA0) := by omega
          have e6 : (0xE0 + c.toNat / 4096 - 0xE0) * 4096 +
              (0x80 + c.toNat / 64 % 64 - 0x80) * 64 +
              (0x80 + c.toNat % 64 - 0x80) = c.toNat := by omega
          unfold utf8Step
          rw [if_neg e1, if_neg e2, if_neg e3, if_pos e4]
          simp only []
          rw [if_pos e5, e6, hofn]
      · refine ⟨0xF0 + c.toNat / 262144,
          [0x80 + c.toNat / 4096 % 64, 0x80 + c.toNat / 64 % 64,
            0x80 + c.toNat % 64], ?_, ?_⟩
        · unfold utf8Encode; simp only []
          rw [if_neg h1, if_neg h2, if_neg h3]
        · simp only [List.cons_append, List.nil_append]
          have e1 : ¬(0xF0 + c.toNat / 262144 < 0x80) := by omega
          have e2 : ¬(0xF0 + c.toNat / 262144 < 0xC2) := by omega
          have e3 : ¬(0xF0 + c.toNat / 262144 < 0xE0) := by omega
          have e4 : ¬(0xF0 + c.toNat / 262144 < 0xF0) := by omega
          have e5 : 0xF0 + c.toNat / 262144 < 0xF5 := by omega
          have e6 : (0x80 ≤ 0x80 + c.toNat / 4096 % 64 ∧
                0x80 + c.toNat / 4096 % 64 < 0xC0) ∧
              (0x80 ≤ 0x80 + c.toNat / 64 % 64 ∧
                0x80 + c.toNat / 64 % 64 < 0xC0) ∧
              (0x80 ≤ 0x80 + c.toNat % 64 ∧ 0x80 + c.toNat % 64 < 0xC0) ∧
              (0xF0 + c.toNat / 262144 = 0xF0 →
                0x90 ≤ 0x80 + c.toNat / 4096 % 64) ∧
              (0xF0 + c.toNat / 262144 = 0xF4 →
                0x80 + c.toNat / 4096 % 64 < 0x90) := by omega
          have e7 : (0xF0 + c.toNat / 262144 - 0xF0) * 262144 +
              (0x80 + c.toNat / 4096 % 64 - 0x80) * 4096 +
              (0x80 + c.toNat / 64 % 64 - 0x80) * 64 +
              (0x80 + c.toNat % 64 - 0x80) = c.toNat := by omega
          unfold utf8Step
          rw [if_neg e1, if_neg e2, if_neg e3, if_neg e4, if_pos e5]
          simp only []
          rw [if_pos e6, e7, hofn]

/-- Concatenated UTF-8 encoding of a char list. -/
def utf8EncodeList (cs : List Char) : List Nat :=
  cs.foldr (fun c acc => utf8Encode c ++ acc) []

theorem utf8Encode_ne_nil (c : Char) : utf8Encode c ≠ [] := by
  unfold utf8Encode
  simp only []
  split
  · simp
  · split
    · simp
    · split <;> simp

theorem utf8DecodeGo_encodeList (cs : List Char) :
    ∀ fuel, (utf8EncodeList cs).length ≤ fuel →
      utf8DecodeGo fuel (utf8EncodeList cs) = some cs := by
  induction cs with
  | nil => intro fuel _; cases fuel <;> rfl
  | cons c rest ih =>
    intro fuel hfuel
    obtain ⟨b, tail, henc, hstep⟩ := utf8Step_encode c (utf8EncodeList rest)
    have hlist : utf8EncodeList (c :: rest) =
        b :: (tail ++ utf8EncodeList rest) := by
      show utf8Encode c ++ utf8EncodeList rest = _
      rw [henc]
      rfl
    rw [hlist] at hfuel ⊢
    match fuel, hfuel with
    | f + 1, hfuel =>
      show (utf8Step b (tail ++ utf8EncodeList rest)).bind
        (fun cp => (utf8DecodeGo f cp.2).map (fun l => cp.1 :: l)) = _
      rw [hstep]
      have hlen : (utf8EncodeList rest).length ≤ f := by
        have := List.length_append tail (utf8EncodeList rest)
        simp only [List.length_cons] at hfuel
        omega
      show (utf8DecodeGo f (utf8EncodeList rest)).map (fun l => c :: l) = _
      rw [ih f hlen]
      rfl

theorem utf8Decode_utf8EncodeList (cs : List Char) :
    utf8Decode (utf8EncodeList cs) = some cs :=
  utf8DecodeGo_encodeList cs _ le_rfl

theorem percentBytesGo_no_percent (cs : List Char) :
    ∀ fuel, cs.length ≤ fuel → (∀ c ∈ cs, c ≠ '%') →
      percentBytesGo fuel cs = some (utf8EncodeList cs) := by
  induction cs with
  | nil => intro fuel _ _; cases fuel <;> rfl
  | cons c rest ih =>
    intro fuel hfuel h
    have hc : c ≠ '%' := h c (List.mem_cons_self _ _)
    match fuel, hfuel with
    | f + 1, hfuel =>
      show (if c = '%' then _ else
        (percentBytesGo f rest).map (fun bs => utf8Encode c ++ bs)) = _
      rw [if_neg hc]
      have hlen : rest.length ≤ f := by
        simp only [List.length_cons] at hfuel
        omega
      rw [ih f hlen (fun x hx => h x (List.mem_cons_of_mem _ hx))]
      rfl

theorem percentDecode_no_percent (s : String) (h : ∀ c ∈ s.data, c ≠ '%') :
    percentDecode s = some s := by
  unfold percentDecode percentBytes
  rw [percentBytesGo_no_percent s.data s.data.length le_rfl h]
  show (utf8Decode (utf8EncodeList s.data)).map String.mk = some s
  rw [utf8Decode_utf8EncodeList]
  show some (String.mk s.data) = some s
  rw [string_mk_data]

theorem percentBytes_ne_nil {cs : List Char} {bs : List Nat}
    (h : percentBytes cs = some bs) (hne : cs ≠ []) : bs ≠ [] := by
  match cs with
  | [] => exact absurd rfl hne
  | c :: rest =>
    unfold percentBytes at h
    simp only [List.length_cons] at h
    rw [show percentBytesGo (rest.length + 1) (c :: rest) =
      (if c = '%' then
        (percentHex rest).bind (fun br =>
          (percentBytesGo rest.length br.2).map (fun bs => br.1 :: bs))
      else (percentBytesGo rest.length rest).map
        (fun bs => utf8Encode c ++ bs)) from rfl] at h
    by_cases hc : c = '%'
    · rw [if_pos hc] at h
      cases hhex : percentHex rest with
      | none => rw [hhex] at h; exact absurd h (by simp)
      | some br =>
        rw [hhex] at h
        cases hgo : percentBytesGo rest.length br.2 with
        | none =>
          rw [show (some br).bind (fun br =>
            (percentBytesGo rest.length br.2).map (fun bs => br.1 :: bs)) =
            (percentBytesGo rest.length br.2).map (fun bs => br.1 :: bs)
            from rfl, hgo] at h
          exact absurd h (by simp)
        | some bs2 =>
          rw [show (some br).bind (fun br =>
            (percentBytesGo rest.length br.2).map (fun bs => br.1 :: bs)) =
            (percentBytesGo rest.length br.2).map (fun bs => br.1 :: bs)
            from rfl, hgo] at h
          simp only [Option.map_some', Option.some.injEq] at h
          rw [← h]
          simp
    · rw [if_neg hc] at h
      cases hgo : percentBytesGo rest.length rest with
      | none => rw [hgo] at h; exact absurd h (by simp)
      | some bs2 =>
        rw [hgo] at h
        simp only [Option.map_some', Option.some.injEq] at h
        rw [← h]
        simp [utf8Encode_ne_nil c]

theorem utf8Decode_ne_nil {bs : List Nat} {l : List Char}
    (h : utf8Decode bs = some l) (hne : bs ≠ []) : l ≠ [] := by
  match bs with
  | [] => exact absurd rfl hne
  | b :: rest =>
    unfold utf8Decode at h
    simp only [List.length_cons] at h
    cases hstep : utf8Step b rest with
    | none =>
      rw [show utf8DecodeGo (rest.length + 1) (b :: rest) =
        (utf8Step b rest).bind (fun cp =>
          (utf8DecodeGo rest.length cp.2).map (fun l => cp.1 :: l)) from rfl,
        hstep] at h
      exact absurd h (by simp)
    | some cp =>
      rw [show utf8DecodeGo (rest.length + 1) (b :: rest) =
        (utf8Step b rest).bind (fun cp =>
          (utf8DecodeGo rest.length cp.2).map (fun l => cp.1 :: l)) from rfl,
        hstep] at h
      cases hgo : utf8DecodeGo rest.length cp.2 with
      | none =>
        rw [show (some cp).bind (fun cp =>
          (utf8DecodeGo rest.length cp.2).map (fun l => cp.1 :: l)) =
          (utf8DecodeGo rest.length cp.2).map (fun l => cp.1 :: l) from rfl,
          hgo] at h
        exact absurd h (by simp)
      | some l2 =>
        rw [show (some cp).bind (fun cp =>
          (utf8DecodeGo rest.length cp.2).map (fun l => cp.1 :: l)) =
          (utf8DecodeGo rest.length cp.2).map (fun l => cp.1 :: l) from rfl,
          hgo] at h
        simp only [Option.map_some', Option.some.injEq] at h
        rw [← h]
        simp

/-! ## Bluesky URL parsing (part_001:188–211) -/

structure BlueskyParse where
  actor : String
  rkey : String
  canonicalUrl : String
  deriving Repr, DecidableEq

/-- `/^\/profile\/([^/]+)\/post\/([^/?#]+)/` applied to the pathname.  The
character classes cannot cross their delimiters, so the match is the forced
span decomposition; the regex is unanchored at the end, so trailing path
content is ignored. -/
def matchProfilePost (path : List Char) : Option (List Char × List Char) :=
  if "/profile/".data.isPrefixOf path then
    let ar := spanUntil ['/'] (path.drop 9)
    if ar.1.isEmpty then none
    else if "/post/".data.isPrefixOf ar.2 then
      let rk := spanUntil ['/', '?', '#'] (ar.2.drop 6)
      if rk.1.isEmpty then none else some (ar.1, rk.1)
    else none
  else none

/-- `parseBlueskyPostUrl` (part_001:188–211) over the URL and
`decodeURIComponent` models; `none` models the thrown errors. -/
def parseBlueskyPostUrl (inputUrl : String) : Option BlueskyParse :=
  match urlParseModel inputUrl with
  | none => none
  | some url =>
    if url.protocol ≠ "https:" ∧ url.protocol ≠ "http:" then none
    else if url.hostname ≠ "bsky.app" ∧ url.hostname ≠ "www.bsky.app" then none
    else
      match matchProfilePost url.pathname.data with
      | none => none
      | some ar =>
        match percentDecode (String.mk ar.1), percentDecode (String.mk ar.2) with
        | some actor, some rkey =>
          some ⟨actor, rkey,
            "https://bsky.app/profile/" ++ actor ++ "/post/" ++ rkey⟩
        | _, _ => none

theorem isPrefixOf_append (a b : List Char) : a.isPrefixOf (a ++ b) = true := by
  induction a with
  | nil => simp [List.isPrefixOf]
  | cons c rest ih => simpa [List.isPrefixOf] using ih

theorem matchProfilePost_canonical (actor rkey : List Char)
    (hae : actor ≠ []) (hre : rkey ≠ [])
    (ha : ∀ c ∈ actor, c ≠ '/')
    (hr : ∀ c ∈ rkey, c ≠ '/' ∧ c ≠ '?' ∧ c ≠ '#') :
    matchProfilePost ("/profile/".data ++ actor ++ ("/post/".data ++ rkey)) =
      some (actor, rkey) := by
  unfold matchProfilePost
  rw [List.append_assoc]
  rw [if_pos (isPrefixOf_append _ _)]
  rw [show ("/profile/".data ++ (actor ++ ("/post/".data ++ rkey))).drop 9 =
    actor ++ ("/post/".data ++ rkey) by
      rw [show (9 : Nat) = "/profile/".data.length from rfl, List.drop_left]]
  have hspan1 : spanUntil ['/'] (actor ++ ("/post/".data ++ rkey)) =
      (actor, "/post/".data ++ rkey) := by
    refine spanUntil_append_stop _ _ _ ?_ ?_
    · intro c hc
      simp [ha c hc]
    · exact ⟨'/', ("post/".data ++ rkey), by simp, by simp⟩
  simp only [hspan1]
  rw [if_neg (by simpa [List.isEmpty_iff] using hae)]
  rw [if_pos (isPrefixOf_append _ _)]
  rw [show ("/post/".data ++ rkey).drop 6 = rkey by
    rw [show (6 : Nat) = "/post/".data.length from rfl, List.drop_left]]
  have hspan2 : spanUntil ['/', '?', '#'] rkey = (rkey, []) := by
    refine spanUntil_all _ _ ?_
    intro c hc
    obtain ⟨h1, h2, h3⟩ := hr c hc
    simp [h1, h2, h3]
  simp only [hspan2]
  rw [if_neg (by simpa [List.isEmpty_iff] using hre)]

theorem matchProfilePost_some {path : List Char} {ar : List Char × List Char}
    (h : matchProfilePost path = some ar) : ar.1 ≠ [] ∧ ar.2 ≠ [] := by
  unfold matchProfilePost at h
  split at h
  · simp only [] at h
    split at h
    · exact absurd h (by simp)
    · split at h
      · split at h
        · exact absurd h (by simp)
        · rename_i hemp1 hpre hemp2
          have := Option.some.inj h
          rw [← this]
          constructor
          · simpa [List.isEmpty_iff] using hemp1
          · simpa [List.isEmpty_iff] using hemp2
      · exact absurd h (by simp)
  · exact absurd h (by simp)

theorem percentDecode_ne_empty {s t : String} (h : percentDecode s = some t)
    (hne : s.data ≠ []) : t.data ≠ [] := by
  unfold percentDecode at h
  cases hpb : percentBytes s.data with
  | none => rw [hpb] at h; exact absurd h (by simp)
  | some bs =>
    rw [hpb] at h
    have h2 : (utf8Decode bs).map String.mk = some t := h
    cases hdec : utf8Decode bs with
    | none => rw [hdec] at h2; exact absurd h2 (by simp)
    | some l =>
      rw [hdec] at h2
      simp only [Option.map_some', Option.some.injEq] at h2
      rw [← h2]
      show l ≠ []
      exact utf8Decode_ne_nil hdec (percentBytes_ne_nil hpb hne)

/-- Bluesky conditional round trip: when the decoded actor and rkey contain
none of `'/'`, `'?'`, `'#'`, `'%'`, re-parsing the canonical URL reproduces
the parse result. -/
theorem parseBlueskyPostUrl_roundTrip {u : String} {r : BlueskyParse}
    (h : parseBlueskyPostUrl u = some r)
    (ha : ∀ c ∈ r.actor.data, c ≠ '/' ∧ c ≠ '?' ∧ c ≠ '#' ∧ c ≠ '%')
    (hk : ∀ c ∈ r.rkey.data, c ≠ '/' ∧ c ≠ '?' ∧ c ≠ '#' ∧ c ≠ '%') :
    parseBlueskyPostUrl r.canonicalUrl = some r := by
  unfold parseBlueskyPostUrl at h
  split at h
  · exact absurd h (by simp)
  · rename_i url hurl
    split at h
    · exact absurd h (by simp)
    · split at h
      · exact absurd h (by simp)
      · split at h
        · exact absurd h (by simp)
        · rename_i hproto hhost ar hmatch
          split at h
          · rename_i actor rkey hdecA hdecK
            have hr := Option.some.inj h
            obtain ⟨harne, hkrne⟩ := matchProfilePost_some hmatch
            have hane : actor.data ≠ [] :=
              percentDecode_ne_empty hdecA harne
            have hkne : rkey.data ≠ [] :=
              percentDecode_ne_empty hdecK hkrne
            -- field equalities
            have hra : r.actor = actor := by rw [← hr]
            have hrk : r.rkey = rkey := by rw [← hr]
            have hrc : r.canonicalUrl =
                "https://bsky.app/profile/" ++ actor ++ "/post/" ++ rkey := by
              rw [← hr]
            rw [hra] at ha
            rw [hrk] at hk
            -- decompose the canonical URL's characters
            have hdata : r.canonicalUrl.data =
                "https://".data ++ "bsky.app".data ++
                  ("/profile/".data ++ actor.data ++
                    ("/post/".data ++ rkey.data)) := by
              rw [hrc]
              show ("https://bsky.app/profile/".data ++ actor.data) ++
                  "/post/".data ++ rkey.data = _
              simp only [List.append_assoc]
              rfl
            have hlit1 : ∀ c ∈ "/profile/".data, c ≠ '?' ∧ c ≠ '#' := by decide
            have hlit2 : ∀ c ∈ "/post/".data, c ≠ '?' ∧ c ≠ '#' := by decide
            have hhostok : ∀ c ∈ "bsky.app".data, hostCharOk c := by
              intro c hc
              fin_cases hc <;> exact ⟨by decide, by decide, by decide,
                by decide, by decide, by decide⟩
            have hre := urlParseModel_reconstruct "bsky.app".data
              ("/profile/".data ++ actor.data ++ ("/post/".data ++ rkey.data))
              (by simp) hhostok
              ⟨("profile/".data ++ actor.data ++ ("/post/".data ++ rkey.data)),
                by simp⟩
              ?pathok
            case pathok =>
              intro c hc
              rcases List.mem_append.mp hc with hc' | hc'
              · rcases List.mem_append.mp hc' with hc'' | hc''
                · exact hlit1 c hc''
                · obtain ⟨h1, h2, h3, h4⟩ := ha c hc''
                  exact ⟨h2, h3⟩
              · rcases List.mem_append.mp hc' with hc'' | hc''
                · exact hlit2 c hc''
                · obtain ⟨h1, h2, h3, h4⟩ := hk c hc''
                  exact ⟨h2, h3⟩
            have hcanon_eq : String.mk ("https://".data ++ "bsky.app".data ++
                ("/profile/".data ++ actor.data ++
                  ("/post/".data ++ rkey.data))) = r.canonicalUrl :=
              String.ext hdata.symm
            rw [hcanon_eq] at hre
            unfold parseBlueskyPostUrl
            rw [hre]
            simp only []
            rw [if_neg (by simp)]
            rw [if_neg (by simp)]
            have hmp := matchProfilePost_canonical actor.data rkey.data hane
              hkne (fun c hc => (ha c hc).1)
              (fun c hc => ⟨(hk c hc).1, (hk c hc).2.1, (hk c hc).2.2.1⟩)
            rw [show (['/', 'p', 'r', 'o', 'f', 'i', 'l', 'e', '/'] :
              List Char) = "/profile/".data from rfl]
            rw [show (['/', 'p', 'o', 's', 't', '/'] : List Char) =
              "/post/".data from rfl]
            rw [hmp]
            simp only []
            rw [string_mk_data, string_mk_data]
            rw [percentDecode_no_percent actor (fun c hc => (ha c hc).2.2.2),
              percentDecode_no_percent rkey (fun c hc => (hk c hc).2.2.2)]
            exact h
          · exact absurd h (by simp)

/-- Counterexample to C8 as stated: a percent-encoded slash in the rkey
decodes to `"a/b"`, the canonical URL embeds the decoded value raw, and
re-parsing it truncates the rkey at the slash. -/
theorem parseBlueskyPostUrl_percent_counterexample :
    parseBlueskyPostUrl "https://bsky.app/profile/alice/post/a%2Fb" =
      some ⟨"alice", "a/b", "https://bsky.app/profile/alice/post/a/b"⟩ ∧
    parseBlueskyPostUrl "https://bsky.app/profile/alice/post/a/b" =
      some ⟨"alice", "a", "https://bsky.app/profile/alice/post/a"⟩ ∧
    ("a" : String) ≠ "a/b" := by
  refine ⟨by decide, by decide, by decide⟩

/-- C8, amended: `parseUrl ∘ canonicalUrl` reproduces the parse result —
unconditionally for the Mastodon adapter, and for the Bluesky adapter
whenever the decoded actor and rkey contain none of `'/'`, `'?'`, `'#'`,
`'%'` (a percent-encoded occurrence of such a character, e.g. `%2F`, breaks
the round trip, as the counterexample shows). -/
theorem parseUrl_canonical_roundTrip :
    (∀ (u : String) (r : MastodonParse), parseMastodonStatusUrl u = some r →
      parseMastodonStatusUrl r.canonicalUrl = some r) ∧
    (∀ (u : String) (r : BlueskyParse), parseBlueskyPostUrl u = some r →
      (∀ c ∈ r.actor.data, c ≠ '/' ∧ c ≠ '?' ∧ c ≠ '#' ∧ c ≠ '%') →
      (∀ c ∈ r.rkey.data, c ≠ '/' ∧ c ≠ '?' ∧ c ≠ '#' ∧ c ≠ '%') →
      parseBlueskyPostUrl r.canonicalUrl = some r) :=
  ⟨fun _ _ h => parseMastodonStatusUrl_roundTrip h,
   fun _ _ h ha hk => parseBlueskyPostUrl_roundTrip h ha hk⟩

/-- Witness for C8 (amended) at concrete URLs of both platforms. -/
theorem parseUrl_canonical_roundTrip_witness :
    parseMastodonStatusUrl
      (MastodonParse.canonicalUrl ⟨"mastodon.social", "12345",
        "https://mastodon.social/@alice/12345"⟩) =
      some ⟨"mastodon.social", "12345", "https://mastodon.social/@alice/12345"⟩ ∧
    parseBlueskyPostUrl
      (BlueskyParse.canonicalUrl ⟨"alice.bsky.social", "abc123",
        "https://bsky.app/profile/alice.bsky.social/post/abc123"⟩) =
      some ⟨"alice.bsky.social", "abc123",
        "https://bsky.app/profile/alice.bsky.social/post/abc123"⟩ := by
  refine ⟨parseUrl_canonical_roundTrip.1
            "https://mastodon.social/@alice/12345" _ (by decide),
          parseUrl_canonical_roundTrip.2
            "https://bsky.app/profile/alice.bsky.social/post/abc123" _
            (by decide) (by decide) (by decide)⟩

inductive AdapterId where
  | mastodon
  | bluesky
  deriving Repr, DecidableEq

/-- `mastodonAdapter.canHandleUrl` (part_001:1346–1349): `none` models the
error thrown by `parseMastodonStatusUrl`, `some b` the returned boolean
`Boolean(parsed.instance && parsed.statusId)`. -/
def mastodonCanHandleUrl (u : String) : Option Bool :=
  (parseMastodonStatusUrl u).map fun r =>
    !(r.instanceHost == "") && !(r.statusId == "")

/-- `blueskyAdapter.canHandleUrl` (part_001:699–702). -/
def blueskyCanHandleUrl (u : String) : Option Bool :=
  (parseBlueskyPostUrl u).map fun r =>
    !(r.actor == "") && !(r.rkey == "")

def canHandleUrl : AdapterId → String → Option Bool
  | .mastodon => mastodonCanHandleUrl
  | .bluesky => blueskyCanHandleUrl

/-- `const adapters = [mastodonAdapter, blueskyAdapter]` (adapter.js:25). -/
def adapters : List AdapterId := [.mastodon, .bluesky]

/-- The loop body of `getAdapterForUrl` (adapter.js:31–40): `some true`
returns the adapter; a thrown `canHandleUrl` (`none`) is caught and the next
adapter is tried; `some false` likewise falls through to the next adapter. -/
def getAdapterForUrlGo (u : String) : List AdapterId → Option AdapterId
  | [] => none
  | a :: rest =>
    match canHandleUrl a u with
    | some true => some a
    | _ => getAdapterForUrlGo u rest

/-- `getAdapterForUrl` (adapter.js:30–41); `none` models `null`. -/
def getAdapterForUrl (u : String) : Option AdapterId :=
  getAdapterForUrlGo u adapters

theorem trailingDigitsId_ne_nil {cs sid : List Char}
    (h : trailingDigitsId cs = some sid) : sid ≠ [] := by
  unfold trailingDigitsId at h
  simp only [] at h
  split at h
  · exact absurd h (by simp)
  · rename_i hemp
    split at h
    · have := Option.some.inj h
      rw [← this]
      intro hc
      have : cs.reverse.takeWhile (fun c => c.isDigit) = [] := by
        have := congrArg List.reverse hc
        simpa using this
      exact hemp (by simp [List.isEmpty_iff, this])
    · exact absurd h (by simp)

theorem parseMastodonStatusUrl_components {u : String} {r : MastodonParse}
    (h : parseMastodonStatusUrl u = some r) :
    r.instanceHost.data ≠ [] ∧ r.statusId.data ≠ [] := by
  unfold parseMastodonStatusUrl at h
  split at h
  · exact absurd h (by simp)
  · rename_i url hurl
    split at h
    · exact absurd h (by simp)
    · simp only [] at h
      split at h
      · exact absurd h (by simp)
      · split at h
        · exact absurd h (by simp)
        · rename_i sid htd
          have := Option.some.inj h
          rw [← this]
          exact ⟨(urlParseModel_host_wf hurl).1, trailingDigitsId_ne_nil htd⟩

theorem parseBlueskyPostUrl_components {u : String} {r : BlueskyParse}
    (h : parseBlueskyPostUrl u = some r) :
    r.actor.data ≠ [] ∧ r.rkey.data ≠ [] := by
  unfold parseBlueskyPostUrl at h
  split at h
  · exact absurd h (by simp)
  · rename_i url hurl
    split at h
    · exact absurd h (by simp)
    · split at h
      · exact absurd h (by simp)
      · split at h
        · exact absurd h (by simp)
        · rename_i ar hmp
          split at h
          · rename_i actor rkey hpd1 hpd2
            have := Option.some.inj h
            rw [← this]
            obtain ⟨h1, h2⟩ := matchProfilePost_some hmp
            exact ⟨percentDecode_ne_empty hpd1 h1,
                   percentDecode_ne_empty hpd2 h2⟩
          · exact absurd h (by simp)

theorem mastodonCanHandleUrl_eq (u : String) :
    mastodonCanHandleUrl u = (parseMastodonStatusUrl u).map fun _ => true := by
  unfold mastodonCanHandleUrl
  cases hp : parseMastodonStatusUrl u with
  | none => rfl
  | some r =>
    obtain ⟨h1, h2⟩ := parseMastodonStatusUrl_components hp
    have e1 : r.instanceHost ≠ "" := fun he => h1 (by rw [he])
    have e2 : r.statusId ≠ "" := fun he => h2 (by rw [he])
    simp [e1, e2]

theorem blueskyCanHandleUrl_eq (u : String) :
    blueskyCanHandleUrl u = (parseBlueskyPostUrl u).map fun _ => true := by
  unfold blueskyCanHandleUrl
  cases hp : parseBlueskyPostUrl u with
  | none => rfl
  | some r =>
    obtain ⟨h1, h2⟩ := parseBlueskyPostUrl_components hp
    have e1 : r.actor ≠ "" := fun he => h1 (by rw [he])
    have e2 : r.rkey ≠ "" := fun he => h2 (by rw [he])
    simp [e1, e2]

/-- C10: for every URL, neither adapter's `canHandleUrl` ever returns
`false` — on unsupported URLs it throws (modelled `none`) — and it returns
`true` exactly when the adapter's parse succeeds (whose components are then
automatically non-empty); `getAdapterForUrl` nevertheless totally computes
the first adapter whose `canHandleUrl` succeeds, or `null`, because thrown
errors are caught and the loop continues. -/
theorem canHandleUrl_throws_or_matches (u : String) :
    canHandleUrl .mastodon u ≠ some false ∧
    canHandleUrl .bluesky u ≠ some false ∧
    (canHandleUrl .mastodon u = some true ↔
      (parseMastodonStatusUrl u).isSome = true) ∧
    (canHandleUrl .bluesky u = some true ↔
      (parseBlueskyPostUrl u).isSome = true) ∧
    getAdapterForUrl u =
      adapters.find? fun a => (canHandleUrl a u).isSome := by
  have hm : canHandleUrl .mastodon u =
      (parseMastodonStatusUrl u).map fun _ => true := mastodonCanHandleUrl_eq u
  have hb : canHandleUrl .bluesky u =
      (parseBlueskyPostUrl u).map fun _ => true := blueskyCanHandleUrl_eq u
  refine ⟨?_, ?_, ?_, ?_, ?_⟩
  · rw [hm]; cases parseMastodonStatusUrl u <;> simp
  · rw [hb]; cases parseBlueskyPostUrl u <;> simp
  · rw [hm]; cases parseMastodonStatusUrl u <;> simp
  · rw [hb]; cases parseBlueskyPostUrl u <;> simp
  · show getAdapterForUrlGo u [.mastodon, .bluesky] = _
    cases hpm : parseMastodonStatusUrl u with
    | some r =>
      rw [hpm] at hm
      simp [getAdapterForUrlGo, adapters, List.find?, hm]
    | none =>
      rw [hpm] at hm
      cases hpb : parseBlueskyPostUrl u with
      | some r =>
        rw [hpb] at hb
        simp [getAdapterForUrlGo, adapters, List.find?, hm, hb]
      | none =>
        rw [hpb] at hb
        simp [getAdapterForUrlGo, adapters, List.find?, hm, hb]

/-- Witness for C10 at a concrete Bluesky URL (Mastodon parse fails on it,
so the loop catches the throw and falls through to the Bluesky adapter). -/
theorem canHandleUrl_throws_or_matches_witness :
    canHandleUrl .mastodon "https://bsky.app/profile/alice/post/xyz" ≠
        some false ∧
      getAdapterForUrl "https://bsky.app/profile/alice/post/xyz" =
        adapters.find? fun a =>
          (canHandleUrl a "https://bsky.app/profile/alice/post/xyz").isSome :=
  ⟨(canHandleUrl_throws_or_matches
      "https://bsky.app/profile/alice/post/xyz").1,
   (canHandleUrl_throws_or_matches
      "https://bsky.app/profile/alice/post/xyz").2.2.2.2⟩

/-! ## Bluesky adapter: normalization helpers (part_001:216–344) -/

/-- JS `a || b` on an optional string: `undefined`/`null`/`""` are falsy. -/
def jsOr (a : Option String) (b : String) : String :=
  match a with
  | some s => if s = "" then b else s
  | none => b

/-- JS `a || b` where the fallback is itself nullable. -/
def jsOrO (a : Option String) (b : Option String) : Option String :=
  match a with
  | some s => if s = "" then b else some s
  | none => b

/-- `String.prototype.split` on a single-character separator. -/
def splitOnChar (sep : Char) : List Char → List (List Char)
  | [] => [[]]
  | c :: rest =>
    let parts := splitOnChar sep rest
    if c = sep then [] :: parts
    else
      match parts with
      | p :: ps => (c :: p) :: ps
      | [] => [[c]]

/-- `postRkeyFromAtUri` (part_001:216–219). -/
def postRkeyFromAtUri (uri : String) : String :=
  let parts := splitOnChar '/' uri.data
  String.mk (parts.getLastD [])

/-- `atUriToWebUrl` (part_001:225–228). -/
def atUriToWebUrl (atUri actor : String) : String :=
  "https://bsky.app/profile/" ++ actor ++ "/post/" ++ postRkeyFromAtUri atUri

/-- One character of `escapeHtml` (part_001:233–240).  The JS chain of five
global replaces is equivalent to this single per-character map because the
first replace handles every original `&` and the replacement texts contain
no character that a later replace rewrites. -/
def escapeHtmlChar (c : Char) : List Char :=
  if c = '&' then "&amp;".data
  else if c = '<' then "&lt;".data
  else if c = '>' then "&gt;".data
  else if c = '"' then "&quot;".data
  else if c.toNat = 39 then "&#39;".data
  else [c]

def escapeHtml (value : String) : String :=
  String.mk (value.data.foldr (fun c acc => escapeHtmlChar c ++ acc) [])

/-- `escapeAndBreak` (part_001:245–247): escape, then `\n` → `<br>`. -/
def escapeAndBreak (value : String) : String :=
  String.mk ((escapeHtml value).data.foldr
    (fun c acc => (if c.toNat = 10 then "<br>".data else [c]) ++ acc) [])

/-- `utf8Length` (part_001:252–263). -/
def utf8Length (codePoint : Nat) : Nat :=
  if codePoint ≤ 0x7f then 1
  else if codePoint ≤ 0x7ff then 2
  else if codePoint ≤ 0xffff then 3
  else 4

/-- The loop of `buildByteBoundaries` (part_001:268–281): JS iterates the
string by UTF-16 code units taking `codePointAt`, which on a well-formed
string visits each code point once, advancing two code units for an astral
character. -/
def buildByteBoundariesGo : List Char → Nat → Nat → List (Nat × Nat)
  | [], _, _ => []
  | c :: rest, byte, cu =>
    let charLength := if 0xffff < c.toNat then 2 else 1
    let byte' := byte + utf8Length c.toNat
    (byte', cu + charLength) :: buildByteBoundariesGo rest byte' (cu + charLength)

def buildByteBoundaries (text : String) : List (Nat × Nat) :=
  (0, 0) :: buildByteBoundariesGo text.data 0 0

/-- The binary-search loop of `byteToCodeUnitIndex` (part_001:297–310).
Each iteration shrinks `high - low`, so `boundaries.length + 1` units of
fuel can never be exhausted; `none` is the unreachable out-of-fuel case. -/
def byteSearchGo (bnd : List (Nat × Nat)) (byteIndex : Int) :
    Nat → Int → Int → Option Nat
  | 0, _, _ => none
  | fuel + 1, low, high =>
    if low ≤ high then
      let mid := (low + high) / 2
      match bnd.get? mid.toNat with
      | none => none
      | some cand =>
        if (cand.1 : Int) = byteIndex then some cand.2
        else if (cand.1 : Int) < byteIndex then
          byteSearchGo bnd byteIndex fuel (mid + 1) high
        else byteSearchGo bnd byteIndex fuel low (mid - 1)
    else
      match bnd.get? (max 0 (low - 1)).toNat with
      | some cand => some cand.2
      | none => none

/-- `byteToCodeUnitIndex` (part_001:287–313). -/
def byteToCodeUnitIndex (bnd : List (Nat × Nat)) (byteIndex : Int) : Nat :=
  match bnd.getLast? with
  | none => 0
  | some last =>
    if byteIndex ≤ 0 then 0
    else if (last.1 : Int) ≤ byteIndex then last.2
    else (byteSearchGo bnd byteIndex (bnd.length + 1) 0 ((bnd.length : Int) - 1)).getD 0

/-- UTF-16 code units of one code point. -/
def utf16Units (c : Char) : List Nat :=
  if 0x10000 ≤ c.toNat then
    let v := c.toNat - 0x10000
    [0xD800 + v / 0x400, 0xDC00 + v % 0x400]
  else [c.toNat]

def toUnits (s : List Char) : List Nat :=
  s.foldr (fun c acc => utf16Units c ++ acc) []

/-- Decode UTF-16 code units back to code points, pairing surrogates; a
lone surrogate (impossible at well-formed facet boundaries) decodes to
U+FFFD since Lean strings hold scalar values only. -/
def unitsToChars : List Nat → List Char
  | [] => []
  | [u] =>
    [if 0xD800 ≤ u ∧ u ≤ 0xDFFF then Char.ofNat 0xFFFD else Char.ofNat u]
  | u :: u2 :: rest =>
    if 0xD800 ≤ u ∧ u ≤ 0xDBFF then
      if 0xDC00 ≤ u2 ∧ u2 ≤ 0xDFFF then
        Char.ofNat (0x10000 + (u - 0xD800) * 0x400 + (u2 - 0xDC00)) ::
          unitsToChars rest
      else Char.ofNat 0xFFFD :: unitsToChars (u2 :: rest)
    else
      (if 0xDC00 ≤ u ∧ u ≤ 0xDFFF then Char.ofNat 0xFFFD else Char.ofNat u) ::
        unitsToChars (u2 :: rest)

/-- `text.slice(a, b)` over UTF-16 code units. -/
def sliceUnits (tu : List Nat) (a b : Nat) : String :=
  String.mk (unitsToChars ((tu.take b).drop a))

/-- `encodeURIComponent` unreserved set `A-Z a-z 0-9 - _ . ! ~ * ' ( )`. -/
def uriUnreserved (c : Char) : Bool :=
  (65 ≤ c.toNat && c.toNat ≤ 90) || (97 ≤ c.toNat && c.toNat ≤ 122) ||
    (48 ≤ c.toNat && c.toNat ≤ 57) ||
    [45, 95, 46, 33, 126, 42, 39, 40, 41].contains c.toNat

def hexDigitUpper (n : Nat) : Char :=
  if n < 10 then Char.ofNat (48 + n) else Char.ofNat (55 + n)

/-- Host `encodeURIComponent`: UTF-8 percent-encoding with uppercase hex. -/
def encodeURIComponent (s : String) : String :=
  String.mk (s.data.foldr (fun c acc =>
    (if uriUnreserved c then [c]
     else (utf8Encode c).foldr
       (fun b a2 => '%' :: hexDigitUpper (b / 16) :: hexDigitUpper (b % 16) :: a2)
       []) ++ acc) [])

/-! ## Bluesky rich text (part_001:317–434) -/

/-- A facet feature, discriminated by its `$type`; `other` covers any other
type.  Absent/empty JS string fields are `none`/`some ""`. -/
inductive BskyFeature where
  | link (uri : Option String)
  | mention (did : Option String)
  | tag (tagName : Option String)
  | feat
  deriving Repr, DecidableEq

/-- A facet: `index.byteStart` / `index.byteEnd` as `Number(...)`, with
`none` for a missing or non-finite value; a non-array `features` is `[]`. -/
structure BskyFacet where
  byteStart : Option Int
  byteEnd : Option Int
  features : List BskyFeature
  deriving Repr, DecidableEq

/-- `pickFacetFeature` (part_001:317–337). -/
def pickFacetFeature (features : List BskyFeature) : Option BskyFeature :=
  match features with
  | [] => none
  | _ =>
    match features.find? fun f => match f with | .link _ => true | _ => false with
    | some m => some m
    | none =>
      match features.find? fun f =>
          match f with | .mention _ => true | _ => false with
      | some m => some m
      | none =>
        match features.find? fun f =>
            match f with | .tag _ => true | _ => false with
        | some m => some m
        | none => features.head?

/-- `segment.replace(/^#/, "")`. -/
def stripLeadingHash (s : String) : String :=
  match s.data with
  | '#' :: rest => String.mk rest
  | _ => s

/-- `renderFacetSegment` (part_001:343–367). -/
def renderFacetSegment (segment : String) (feature : Option BskyFeature) :
    String :=
  let label := escapeAndBreak segment
  match feature with
  | none => label
  | some f =>
    let href :=
      match f with
      | .link uri => jsOr uri ""
      | .mention did => "https://bsky.app/profile/" ++ (jsOr did "")
      | .tag t =>
        let tg := jsOr t (stripLeadingHash segment)
        "https://bsky.app/hashtag/" ++ encodeURIComponent tg
      | .feat => ""
    if href = "" then label
    else
      "<a href=\"" ++ escapeHtml href ++
        "\" target=\"_blank\" rel=\"noopener noreferrer nofollow\">" ++
        label ++ "</a>"

/-- A facet range with code-unit `start`/`stop` (source: `end`). -/
structure BskyRange where
  start : Nat
  stop : Nat
  feature : BskyFeature
  deriving Repr, DecidableEq

/-- The JS comparator `(a, b) => a.start - b.start, ties a.end - b.end`, as
the `cmp ≤ 0` relation for the stable sort. -/
def rangeLe (a b : BskyRange) : Bool :=
  (if (a.start : Int) - b.start ≠ 0 then (a.start : Int) - b.start
   else (a.stop : Int) - b.stop) ≤ 0

/-- The overlap-dropping pass (part_001:418–427). -/
def selectNonOverlapping : List BskyRange → Nat → List BskyRange
  | [], _ => []
  | r :: rest, cursor =>
    if r.start < cursor then selectNonOverlapping rest cursor
    else r :: selectNonOverlapping rest r.stop

/-- The rendering pass (part_001:429–437), slicing by code units. -/
def renderRanges (tu : List Nat) : List BskyRange → Nat → String
  | [], cursor => escapeAndBreak (String.mk (unitsToChars (tu.drop cursor)))
  | r :: rest, cursor =>
    escapeAndBreak (sliceUnits tu cursor r.start) ++
      renderFacetSegment (sliceUnits tu r.start r.stop) (some r.feature) ++
      renderRanges tu rest r.stop

/-- A Bluesky record's fields used by normalization; `reply.parent.uri`
flattened to `replyParentUri`. -/
structure BskyRecord where
  text : Option String
  facets : List BskyFacet
  createdAt : Option String
  replyParentUri : Option String
  deriving Repr, DecidableEq

/-- `richTextToHtml` (part_001:372–439); `none` models `{}`. -/
def richTextToHtml (record : Option BskyRecord) : String :=
  let text := jsOr (record.bind (·.text)) ""
  if text = "" then ""
  else
    let facets := match record with | some r => r.facets | none => []
    if facets.isEmpty then "<p>" ++ escapeAndBreak text ++ "</p>"
    else
      let boundaries := buildByteBoundaries text
      let ranges := facets.filterMap fun facet =>
        match facet.byteStart, facet.byteEnd with
        | some bs, some be =>
          if be ≤ bs then none
          else
            let s := byteToCodeUnitIndex boundaries bs
            let e := byteToCodeUnitIndex boundaries be
            if e ≤ s then none
            else
              match pickFacetFeature facet.features with
              | some f => some (⟨s, e, f⟩ : BskyRange)
              | none => none
        | _, _ => none
      if ranges.isEmpty then "<p>" ++ escapeAndBreak text ++ "</p>"
      else
        let sorted := sortByCmp rangeLe ranges
        let nonOverlapping := selectNonOverlapping sorted 0
        "<p>" ++ renderRanges (toUnits text.data) nonOverlapping 0 ++ "</p>"

/-! ## Bluesky embeds and `normalizePost` (part_001:444–574) -/

structure BskyImage where
  fullsize : Option String
  thumb : Option String
  alt : Option String
  deriving Repr, DecidableEq

/-- An embed view, discriminated by `$type`; `extEmbed` is
`app.bsky.embed.external#view`, `unknownEmbed` any other object. -/
inductive BskyEmbed where
  | images (images : List BskyImage)
  | video (presentation : Option String) (playlist : Option String)
      (thumbnail : Option String)
  | recordWithMedia (media : Option BskyEmbed)
  | extEmbed (uri : Option String) (title : Option String)
      (description : Option String) (thumb : Option String)
  | unknownEmbed
  deriving Repr

/-- `attachmentsFromEmbed` (part_001:444–486). -/
def attachmentsFromEmbed : Option BskyEmbed → String → List Attachment
  | none, _ => []
  | some (.images images), postId =>
    (images.enum.map fun p =>
      ({ id := postId ++ "-img-" ++ Nat.repr (p.1 + 1),
         type := "image",
         url := jsOr p.2.fullsize (jsOr p.2.thumb ""),
         previewUrl := jsOrO p.2.thumb (jsOrO p.2.fullsize none),
         description := jsOr p.2.alt "" } : Attachment)).filter
      fun a => a.url ≠ "" || a.previewUrl.isSome
  | some (.video presentation playlist thumbnail), postId =>
    let mediaType := if presentation = some "gifv" then "gifv" else "video"
    let url := jsOr playlist ""
    let previewUrl := jsOrO thumbnail none
    if url = "" ∧ previewUrl = none then []
    else [{ id := postId ++ "-video", type := mediaType, url := url,
            previewUrl := previewUrl, description := "" }]
  | some (.recordWithMedia media), postId => attachmentsFromEmbed media postId
  | some _, _ => []

/-- `hostFromUrl` (part_001:489–495): the `URL` constructor throwing is the
`none` case of the model. -/
def hostFromUrl (url : String) : String :=
  match urlParseModel url with
  | some u =>
    if "www.".data.isPrefixOf u.hostname.data then
      String.mk (u.hostname.data.drop 4)
    else u.hostname
  | none => ""

/-- `linkEmbedsFromEmbed` (part_001:501–541). -/
def linkEmbedsFromEmbed : Option BskyEmbed → String → List LinkEmbed
  | none, _ => []
  | some (.extEmbed uri title description thumb), postId =>
    let url := jsOr uri ""
    if url = "" then []
    else
      let t := jsOr title ""
      let d := jsOr description ""
      let imageUrl := jsOrO thumb none
      if t = "" ∧ d = "" ∧ imageUrl = none then []
      else [{ id := postId ++ "-external", url := url, title := t,
              description := d, siteName := hostFromUrl url,
              imageUrl := imageUrl }]
  | some (.recordWithMedia media), postId => linkEmbedsFromEmbed media postId
  | some _, _ => []

structure BskyAuthor where
  did : Option String
  handle : Option String
  displayName : Option String
  deriving Repr, DecidableEq

/-- A raw Bluesky post as delivered by `getPostThread`. -/
structure BskyRawPost where
  uri : Option String
  author : Option BskyAuthor
  record : Option BskyRecord
  indexedAt : Option String
  replyCount : Option Int
  repostCount : Option Int
  likeCount : Option Int
  embed : Option BskyEmbed
  deriving Repr

/-- `normalizePost` (part_001:546–574); `new Date().toISOString()` is the
host clock parameter `nowIso`. -/
def normalizePost (nowIso : String) (post : Option BskyRawPost) : Post :=
  let author := (post.bind (·.author)).getD ⟨none, none, none⟩
  let handle := jsOr author.handle (jsOr author.did "unknown.bsky.social")
  let id := jsOr (post.bind (·.uri)) ""
  let record := post.bind (·.record)
  { id := id,
    url := atUriToWebUrl id handle,
    createdAt := jsOr (record.bind (·.createdAt))
      (jsOr (post.bind (·.indexedAt)) nowIso),
    contentHtml := richTextToHtml record,
    spoilerText := "",
    sensitive := false,
    inReplyToId :=
      match record.bind (·.replyParentUri) with
      | some u => if u = "" then none else some u
      | none => none,
    counts := ⟨(post.bind (·.replyCount)).getD 0,
               (post.bind (·.repostCount)).getD 0,
               (post.bind (·.likeCount)).getD 0⟩,
    account := ⟨jsOr author.did "", handle, handle,
                jsOr author.displayName handle,
                "https://bsky.app/profile/" ++ handle⟩,
    attachments := attachmentsFromEmbed (post.bind (·.embed)) id,
    linkEmbeds := linkEmbedsFromEmbed (post.bind (·.embed)) id }

/-! ## Bluesky thread tree and continuation (part_001:580–688) -/

/-- A `getPostThread` node: `viewPost` is
`app.bsky.feed.defs#threadViewPost`, `stray` any other node value. -/
inductive BskyNode where
  | viewPost (post : Option BskyRawPost) (parent : Option BskyNode)
      (replies : List BskyNode)
  | stray
  deriving Repr

mutual
/-- `collectThreadPosts` (part_001:580–604): insert-if-absent into `byUri`
for a truthy `post.uri`, then recurse into `parent` and each reply. -/
def collectThreadPosts : BskyNode → List (String × BskyRawPost) →
    List (String × BskyRawPost)
  | .stray, byUri => byUri
  | .viewPost post parent replies, byUri =>
    let byUri1 :=
      match post with
      | some p =>
        match p.uri with
        | some u =>
          if u ≠ "" ∧ ¬ mapHasKey byUri u then byUri ++ [(u, p)] else byUri
        | none => byUri
      | none => byUri
    let byUri2 :=
      match parent with
      | some pr => collectThreadPosts pr byUri1
      | none => byUri1
    collectThreadPostsList replies byUri2

def collectThreadPostsList : List BskyNode → List (String × BskyRawPost) →
    List (String × BskyRawPost)
  | [], byUri => byUri
  | n :: ns, byUri => collectThreadPostsList ns (collectThreadPosts n byUri)
end

/-- The Bluesky date comparator (part_001:606–614): unlike the builder's
`compareByDate`, a `NaN` delta (either timestamp unparseable) falls through
to the id comparison. -/
def bskyCompare (dp : String → Option Int) (a b : Post) : Int :=
  match dp a.createdAt, dp b.createdAt with
  | some x, some y => if x - y ≠ 0 then x - y else localeCompare a.id b.id
  | _, _ => localeCompare a.id b.id

/-- `comparePostsByDate` (part_001:606–614): a sorted copy. -/
def comparePostsByDate (dp : String → Option Int) (posts : List Post) :
    List Post :=
  sortByCmp (fun a b => bskyCompare dp a b ≤ 0) posts

/-- The grouping loop shared by the Bluesky `buildChildrenMap`
(part_001:622–629) and the Mastodon per-round `childrenByParent`
(part_001:1262–1271): bucket by truthy `inReplyToId`. -/
def replyGroups (posts : List Post) : List (String × List Post) :=
  posts.foldl (fun m p =>
    match p.inReplyToId with
    | some pid => if pid = "" then m else bucketAdd m pid p
    | none => m) []

/-- `buildChildrenMap` (part_001:619–641). -/
def buildChildrenMap (dp : String → Option Int) (posts : List Post) :
    List (String × List Post) :=
  (replyGroups posts).map fun kv =>
    (kv.1, sortByCmp (fun a b => bskyCompare dp a b ≤ 0) kv.2)

/-- `depthFromBudget` (part_001:646–649); `Math.round` is the identity on
the integer `budget * 120`, and `requestBudget || 3` maps `0` and
`undefined` to `3`. -/
def depthFromBudget (requestBudget : Option Int) : Int :=
  let budget := match requestBudget with
    | some b => if b = 0 then 3 else b
    | none => 3
  max 30 (min 1000 (budget * 120))

/-- The walk of `continueFromTail` (part_001:669–682); each iteration adds
one previously unseen id from the discovered set to `seen`, so fuel
`discovered.length + 1` can never run out. -/
def continueFromTailGo (children : List (String × List Post)) :
    Nat → List String → Post → List Post
  | 0, _, _ => []
  | fuel + 1, seen, cursor =>
    match (bucketGet children cursor.id).filter
        (fun p => !(seen.contains p.id)) with
    | [] => []
    | next :: _ =>
      next :: continueFromTailGo children fuel (next.id :: seen) next

/-- `continueFromTail` (part_001:656–688): the appended additions and the
alternate-branches flag. -/
def continueFromTail (dp : String → Option Int) (thread : Thread)
    (discovered : List Post) : List Post × Bool :=
  let children := buildChildrenMap dp discovered
  let hasAlternateBranches := children.any fun kv => 1 < kv.2.length
  match thread.posts.getLast? with
  | none => ([], hasAlternateBranches)
  | some tail =>
    (continueFromTailGo children (discovered.length + 1)
      (thread.posts.map Post.id) tail, hasAlternateBranches)

/-- The shared result shape `{thread, hasMore, addedCount,
rateLimitedUntil}`. -/
structure ContinueResult where
  thread : Thread
  hasMore : Bool
  addedCount : Nat
  rateLimitedUntil : Int
  deriving Repr, DecidableEq

/-- Outcome of a `getPostThread` network call: `ok` carries
`threadResponse?.thread`; `rateLimit` models a thrown
`BlueskyRateLimitError`; `fetchErr` any other thrown error. -/
inductive BskyFetchOutcome where
  | ok (thread : Option BskyNode)
  | rateLimit (retryAfterMs : Int)
  | fetchErr (msg : String)
  deriving Repr

/-- The same-author post list `continueThread` derives from a fetched root
node (part_001:829–833): collect, normalize, filter by author id, sort. -/
def bskySameAuthorOf (dp : String → Option Int) (nowIso : String)
    (authorId : String) (root : BskyNode) : List Post :=
  comparePostsByDate dp
    (((mapValues (collectThreadPosts root [])).map fun r =>
        normalizePost nowIso (some r)).filter
      fun p => p.account.id == authorId)

/-- `blueskyAdapter.continueThread` (part_001:783–853).  The JS
`!thread || !Array.isArray(thread.posts)` guards are vacuous for a typed
`Thread`, leaving the platform check; `Date.now()`/`toISOString()` are the
`now`/`nowIso` parameters and the network is the `env` oracle keyed by
`(uri, depth)` (with `parentHeight` fixed at 0). -/
def blueskyContinueThread (dp : String → Option Int) (now : Int)
    (nowIso : String) (env : String → Int → BskyFetchOutcome)
    (thread : Thread) (maxContextRequests : Option Int) :
    Except String ContinueResult :=
  if thread.platform ≠ "bluesky" then
    Except.error "Cannot continue thread: invalid Bluesky thread payload."
  else
    match thread.posts.getLast? with
    | none => Except.ok ⟨thread, false, 0, 0⟩
    | some tail =>
      let depth := depthFromBudget maxContextRequests
      match env tail.id depth with
      | .rateLimit retryAfterMs =>
        Except.ok ⟨thread, true, 0, now + retryAfterMs⟩
      | .fetchErr msg => Except.error msg
      | .ok root =>
        match root with
        | some (.viewPost post parent replies) =>
          let sameAuthorPosts :=
            bskySameAuthorOf dp nowIso thread.author.id
              (.viewPost post parent replies)
          let continuation := continueFromTail dp thread sameAuthorPosts
          Except.ok ⟨{ thread with
                       fetchedAt := nowIso,
                       hasAlternateBranches :=
                         thread.hasAlternateBranches || continuation.2,
                       posts := thread.posts ++ continuation.1 },
                     decide (0 < continuation.1.length),
                     continuation.1.length, 0⟩
        | _ => Except.ok ⟨thread, false, 0, 0⟩

/-- Outcome of the `getProfile` call in `fetchThread`. -/
inductive BskyProfileOutcome where
  | ok (did : Option String)
  | profileErr (msg : String)
  deriving Repr

/-- `blueskyAdapter.fetchThread` (part_001:708–781).  Thrown fetch errors
(including rate limits) propagate: `fetchThread` has no `try`/`catch`. -/
def blueskyFetchThread (dp : String → Option Int) (nowIso : String)
    (penv : String → BskyProfileOutcome)
    (tenv : String → Int → Int → BskyFetchOutcome)
    (inputUrl : String) (initialContextRequests : Option Int) :
    Except String ContinueResult :=
  match parseBlueskyPostUrl inputUrl with
  | none => Except.error "invalid Bluesky URL"
  | some parsed =>
    match penv parsed.actor with
    | .profileErr msg => Except.error msg
    | .ok didOpt =>
      let did := jsOr didOpt ""
      if did = "" then
        Except.error "Could not resolve Bluesky profile DID for that URL."
      else
        let seedUri := "at://" ++ did ++ "/app.bsky.feed.post/" ++ parsed.rkey
        let depth := depthFromBudget initialContextRequests
        match tenv seedUri depth depth with
        | .rateLimit _ =>
          Except.error "Bluesky API is rate limiting requests."
        | .fetchErr msg => Except.error msg
        | .ok root =>
          match root with
          | some (.viewPost post parent replies) =>
            let byUri := collectThreadPosts (.viewPost post parent replies) []
            let seedRaw :=
              match mapGet byUri seedUri with
              | some r => some r
              | none => post
            match seedRaw with
            | none =>
              Except.error
                "Could not locate the seed post in that Bluesky thread."
            | some seedRawPost =>
              let seedPost := normalizePost nowIso (some seedRawPost)
              let authorId := seedPost.account.id
              let normalizedById := (mapValues byUri).foldl (fun m raw =>
                let normalized := normalizePost nowIso (some raw)
                if normalized.account.id ≠ authorId then m
                else mapSet m normalized.id normalized) []
              let normalizedById := mapSet normalizedById seedPost.id seedPost
              let descendants := comparePostsByDate dp
                ((mapValues normalizedById).filter
                  fun p => p.id != seedPost.id)
              let built := buildMainlineThread dp ⟨seedPost, [], descendants⟩
              Except.ok ⟨{ platform := "bluesky",
                           instanceHost := "public.api.bsky.app",
                           seedPostId := seedPost.id,
                           sourceUrl := parsed.canonicalUrl,
                           fetchedAt := nowIso,
                           hasAlternateBranches := built.hasAlternateBranches,
                           posts := built.posts,
                           author := seedPost.account }, true, 0, 0⟩
          | _ => Except.error "Could not load that Bluesky thread."

/-! ## Mastodon adapter: normalization (part_001:1064–1135) -/

structure RawAccount where
  id : Option String
  username : Option String
  acct : Option String
  display_name : Option String
  url : Option String
  deriving Repr, DecidableEq

structure RawAttachment where
  id : Option String
  type : Option String
  url : Option String
  preview_url : Option String
  description : Option String
  deriving Repr, DecidableEq

structure RawCard where
  url : Option String
  title : Option String
  description : Option String
  provider_name : Option String
  image : Option String
  deriving Repr, DecidableEq

/-- A raw Mastodon status; `id`/`created_at`/`sensitive` are modelled at
their JSON types, optional string fields as `Option String`. -/
structure RawStatus where
  id : String
  url : Option String
  created_at : String
  content : Option String
  spoiler_text : Option String
  sensitive : Bool
  in_reply_to_id : Option String
  replies_count : Option Int
  reblogs_count : Option Int
  favourites_count : Option Int
  account : Option RawAccount
  media_attachments : List RawAttachment
  card : Option RawCard
  deriving Repr, DecidableEq

/-- `linkEmbedsFromCard` (part_001:1064–1096); the `typeof x === "string"`
guards are the `Option.getD ""` defaults. -/
def linkEmbedsFromCard (card : Option RawCard) (postId : String) :
    List LinkEmbed :=
  match card with
  | none => []
  | some c =>
    let url := c.url.getD ""
    if url = "" then []
    else
      let title := c.title.getD ""
      let description := c.description.getD ""
      let siteName := c.provider_name.getD ""
      let imageUrl := jsOrO c.image none
      if title = "" ∧ description = "" ∧ imageUrl = none then []
      else [{ id := postId ++ "-card", url := url, title := title,
              description := description, siteName := siteName,
              imageUrl := imageUrl }]

/-- `normalizeStatus` (part_001:1103–1135). -/
def normalizeStatus (instanceHost : String) (raw : RawStatus) : Post :=
  let account := raw.account.getD ⟨none, none, none, none, none⟩
  let username := jsOr account.username "unknown"
  { id := raw.id,
    url := jsOr raw.url
      ("https://" ++ instanceHost ++ "/@" ++ username ++ "/" ++ raw.id),
    createdAt := raw.created_at,
    contentHtml := jsOr raw.content "",
    spoilerText := jsOr raw.spoiler_text "",
    sensitive := raw.sensitive,
    inReplyToId :=
      match raw.in_reply_to_id with
      | some s => if s = "" then none else some s
      | none => none,
    counts := ⟨(raw.replies_count).getD 0, (raw.reblogs_count).getD 0,
               (raw.favourites_count).getD 0⟩,
    account := ⟨jsOr account.id "", username, jsOr account.acct username,
                jsOr account.display_name username,
                jsOr account.url ("https://" ++ instanceHost ++ "/@" ++ username)⟩,
    attachments := raw.media_attachments.map fun a =>
      { id := jsOr a.id "", type := jsOr a.type "unknown",
        url := jsOr a.url "", previewUrl := jsOrO a.preview_url none,
        description := jsOr a.description "" },
    linkEmbeds := linkEmbedsFromCard raw.card raw.id }

/-! ## Mastodon descendant extension (part_001:1215–1314, 1423–1465).
The Mastodon file's `asTimestamp`/`compareByDate` (part_001:1138–1152) are
verbatim copies of the thread builder's, so `compareByDate`/`cmpLe` are
reused. -/

/-- Outcome of one context fetch; `ok` carries
`contextRaw.descendants || []`. -/
inductive MastoFetchOutcome where
  | ok (descendants : List RawStatus)
  | rateLimit (retryAfterMs : Int)
  | fetchErr (msg : String)
  deriving Repr

def contextEndpoint (instanceHost id : String) : String :=
  "https://" ++ instanceHost ++ "/api/v1/statuses/" ++ id ++ "/context"

/-- `Number(x || CONTINUE_CONTEXT_EXPANSION_REQUESTS)` with the constant
`3` (part_001:861). -/
def mastoMaxRequests (maxContextRequests : Option Int) : Int :=
  match maxContextRequests with
  | some n => if n = 0 then 3 else n
  | none => 3

/-- One round's same-author descendant list (part_001:1253–1255):
normalize the context descendants and keep the author's posts. -/
def mastoSameAuthorOf (instanceHost authorId : String)
    (rawDescendants : List RawStatus) : List Post :=
  (rawDescendants.map (normalizeStatus instanceHost)).filter
    fun s => s.account.id == authorId

/-- The mutable locals of `extendDescendants` that the loop threads. -/
structure ExtendState where
  posts : List Post
  seen : List String
  tail : Post
  addedCount : Nat
  hasAlternateBranches : Bool
  deriving Repr, DecidableEq

/-- `childrenByParent` of one round (part_001:1262–1279): group the
same-author descendants by truthy `inReplyToId`, then sort each bucket
with `compareByDate`. -/
def mastoChildren (dp : String → Option Int) (sameAuthor : List Post) :
    List (String × List Post) :=
  (replyGroups sameAuthor).map fun kv => (kv.1, sortByCmp (cmpLe dp) kv.2)

/-- The inner `while (true)` walk (part_001:1281–1297); each iteration
consumes a fresh unseen id out of the round's same-author set, so fuel
`sameAuthor.length + 1` can never run out.  Returns the updated state and
the `progressed` flag. -/
def mastoWalk (children : List (String × List Post)) :
    Nat → Bool → ExtendState → ExtendState × Bool
  | 0, progressed, st => (st, progressed)
  | fuel + 1, progressed, st =>
    match (bucketGet children st.tail.id).filter
        (fun p => !(st.seen.contains p.id)) with
    | [] => (st, progressed)
    | next :: _ =>
      mastoWalk children fuel true
        { st with posts := st.posts ++ [next], seen := next.id :: st.seen,
                  tail := next, addedCount := st.addedCount + 1 }

/-- The outer `while (tail && requests < maxRequests)` loop
(part_001:1237–1302) on the remaining request budget; the fuel-0 case is
the budget-exhaustion exit, after which the post-loop fixup
(part_001:1304–1306) leaves `hasMore = true`.  Returns
`(state, hasMore, rateLimitedUntil)`. -/
def extendDescGo (dp : String → Option Int) (now : Int)
    (menv : String → MastoFetchOutcome) (instanceHost authorId : String) :
    Nat → ExtendState → ExtendState × Bool × Int
  | 0, st => (st, true, 0)
  | rem + 1, st =>
    match menv (contextEndpoint instanceHost st.tail.id) with
    | .rateLimit retryAfterMs => (st, true, now + retryAfterMs)
    | .fetchErr _ => (st, false, 0)
    | .ok rawDescendants =>
      let sameAuthor := mastoSameAuthorOf instanceHost authorId rawDescendants
      if sameAuthor.isEmpty then (st, false, 0)
      else
        let children := mastoChildren dp sameAuthor
        let st1 := { st with hasAlternateBranches :=
          st.hasAlternateBranches || children.any fun kv => 1 < kv.2.length }
        let walked := mastoWalk children (sameAuthor.length + 1) false st1
        if walked.2 = false then (walked.1, false, 0)
        else extendDescGo dp now menv instanceHost authorId rem walked.1

structure ExtendResult where
  addedCount : Nat
  hasAlternateBranches : Bool
  hasMore : Bool
  rateLimitedUntil : Int
  deriving Repr, DecidableEq

/-- `extendDescendants` (part_001:1215–1314); also returns the final
`input.posts` array (mutated in place by the JS). -/
def extendDescendants (dp : String → Option Int) (now : Int)
    (menv : String → MastoFetchOutcome) (instanceHost authorId : String)
    (posts0 : List Post) (seen0 : List String)
    (maxContextRequests : Option Int) : ExtendResult × List Post :=
  match posts0.getLast? with
  | none => (⟨0, false, false, 0⟩, posts0)
  | some tail =>
    let maxRequests := mastoMaxRequests maxContextRequests
    let r := extendDescGo dp now menv instanceHost authorId maxRequests.toNat
      ⟨posts0, seen0, tail, 0, false⟩
    (⟨r.1.addedCount, r.1.hasAlternateBranches, r.2.1, r.2.2⟩, r.1.posts)

/-- `thread.author?.id || posts[0].account.id` (part_001:1439), for a
thread whose `posts` is non-empty. -/
def mastoAuthorId (thread : Thread) : String :=
  if thread.author.id = "" then
    ((thread.posts.head?).map fun p => p.account.id).getD ""
  else thread.author.id

/-- `mastodonAdapter.continueThread` (part_001:1423–1465).  The
`!thread || !Array.isArray(thread.posts)` guards are vacuous for a typed
`Thread`, leaving the platform check; `thread.author?.id ||
posts[0].account.id` is the empty-id fallback. -/
def mastodonContinueThread (dp : String → Option Int) (now : Int)
    (nowIso : String) (menv : String → MastoFetchOutcome) (thread : Thread)
    (maxContextRequests : Option Int) : Except String ContinueResult :=
  if thread.platform ≠ "mastodon" then
    Except.error "Cannot continue thread: invalid thread payload."
  else
    match thread.posts with
    | [] => Except.ok ⟨thread, false, 0, 0⟩
    | _ :: _ =>
      let posts := thread.posts
      let seenIds := posts.map Post.id
      let authorId := mastoAuthorId thread
      let r := extendDescendants dp now menv thread.instanceHost authorId
        posts seenIds (some (mastoMaxRequests maxContextRequests))
      Except.ok ⟨{ thread with
                   fetchedAt := nowIso,
                   hasAlternateBranches :=
                     thread.hasAlternateBranches || r.1.hasAlternateBranches,
                   posts := r.2 },
                 r.1.hasMore, r.1.addedCount, r.1.rateLimitedUntil⟩

/-! ## Lemmas about grouping, walks, and the extension loops -/

theorem mapGet_map_snd {β γ : Type} (g : β → γ) (m : List (String × β))
    (k : String) :
    mapGet (m.map fun kv => (kv.1, g kv.2)) k = (mapGet m k).map g := by
  induction m with
  | nil => rfl
  | cons kv rest ih =>
    obtain ⟨a, b⟩ := kv
    by_cases h : a = k
    · simp [mapGet, h]
    · simp [mapGet, h, ih]

theorem mem_bucketGet_bucketAdd {β : Type} {m : List (String × List β)}
    {k k' : String} {v x : β}
    (h : x ∈ bucketGet (bucketAdd m k v) k') : x ∈ bucketGet m k' ∨ x = v := by
  induction m with
  | nil =>
    by_cases hk : k = k'
    · simp [bucketAdd, bucketGet, mapGet, hk] at h
      exact Or.inr h
    · simp [bucketAdd, bucketGet, mapGet, hk] at h
  | cons kv rest ih =>
    obtain ⟨a, b⟩ := kv
    by_cases ha : a = k
    · subst ha
      by_cases hk : a = k'
      · simp only [bucketAdd, if_pos rfl, bucketGet, mapGet, hk, if_pos rfl,
          Option.getD_some] at h ⊢
        rcases List.mem_append.mp h with h1 | h1
        · exact Or.inl h1
        · simp at h1
          exact Or.inr h1
      · simp only [bucketAdd, if_pos rfl, bucketGet, mapGet, hk, if_neg hk,
          ite_false] at h ⊢
        exact Or.inl h
    · by_cases hk : a = k'
      · simp only [bucketAdd, if_neg ha, bucketGet, mapGet, if_pos hk] at h ⊢
        exact Or.inl h
      · simp only [bucketAdd, if_neg ha, bucketGet, mapGet, if_neg hk] at h ⊢
        exact ih h

theorem mem_bucketGet_replyGroups {posts : List Post} {k : String} {x : Post}
    (h : x ∈ bucketGet (replyGroups posts) k) : x ∈ posts := by
  unfold replyGroups at h
  suffices H : ∀ (m0 : List (String × List Post)),
      x ∈ bucketGet (posts.foldl (fun m p =>
        match p.inReplyToId with
        | some pid => if pid = "" then m else bucketAdd m pid p
        | none => m) m0) k → x ∈ bucketGet m0 k ∨ x ∈ posts by
    rcases H [] h with h0 | h1
    · simp [bucketGet, mapGet] at h0
    · exact h1
  clear h
  induction posts with
  | nil => intro m0 h; exact Or.inl h
  | cons p ps ih =>
    intro m0 h
    simp only [List.foldl_cons] at h
    rcases ih _ h with h1 | h1
    · cases hr : p.inReplyToId with
      | none =>
        simp only [hr] at h1
        exact Or.inl h1
      | some pid =>
        simp only [hr] at h1
        by_cases hp : pid = ""
        · rw [if_pos hp] at h1
          exact Or.inl h1
        · rw [if_neg hp] at h1
          rcases mem_bucketGet_bucketAdd h1 with h2 | h2
          · exact Or.inl h2
          · exact Or.inr (by simp [h2])
    · exact Or.inr (by simp [h1])

theorem mem_bucketGet_buildChildrenMap {dp : String → Option Int}
    {posts : List Post} {k : String} {x : Post}
    (h : x ∈ bucketGet (buildChildrenMap dp posts) k) : x ∈ posts := by
  unfold buildChildrenMap bucketGet at h
  rw [mapGet_map_snd] at h
  cases hg : mapGet (replyGroups posts) k with
  | none => rw [hg] at h; simp at h
  | some b =>
    rw [hg] at h
    simp only [Option.map_some', Option.getD_some] at h
    have hxb : x ∈ b := mem_sortByCmp.mp h
    have hb : bucketGet (replyGroups posts) k = b := by
      simp [bucketGet, hg]
    exact mem_bucketGet_replyGroups (show x ∈ bucketGet (replyGroups posts) k by
      rw [hb]; exact hxb)

theorem mem_bucketGet_mastoChildren {dp : String → Option Int}
    {posts : List Post} {k : String} {x : Post}
    (h : x ∈ bucketGet (mastoChildren dp posts) k) : x ∈ posts := by
  unfold mastoChildren bucketGet at h
  rw [mapGet_map_snd] at h
  cases hg : mapGet (replyGroups posts) k with
  | none => rw [hg] at h; simp at h
  | some b =>
    rw [hg] at h
    simp only [Option.map_some', Option.getD_some] at h
    have hxb : x ∈ b := mem_sortByCmp.mp h
    have hb : bucketGet (replyGroups posts) k = b := by
      simp [bucketGet, hg]
    exact mem_bucketGet_replyGroups (show x ∈ bucketGet (replyGroups posts) k by
      rw [hb]; exact hxb)

theorem continueFromTailGo_of_all_seen {children : List (String × List Post)}
    {seen : List String} {cursor : Post} (fuel : Nat)
    (h : (bucketGet children cursor.id).filter
      (fun p => !(seen.contains p.id)) = []) :
    continueFromTailGo children fuel seen cursor = [] := by
  cases fuel with
  | zero => rfl
  | succ n => simp only [continueFromTailGo, h]

theorem mastoWalk_of_all_seen {children : List (String × List Post)}
    {st : ExtendState} (fuel : Nat) (progressed : Bool)
    (h : (bucketGet children st.tail.id).filter
      (fun p => !(st.seen.contains p.id)) = []) :
    mastoWalk children fuel progressed st = (st, progressed) := by
  cases fuel with
  | zero => rfl
  | succ n => simp only [mastoWalk, h]

theorem mastoWalk_posts_extend (children : List (String × List Post)) :
    ∀ (fuel : Nat) (progressed : Bool) (st : ExtendState),
      ∃ t, (mastoWalk children fuel progressed st).1.posts = st.posts ++ t := by
  intro fuel
  induction fuel with
  | zero => intro progressed st; exact ⟨[], by simp [mastoWalk]⟩
  | succ n ih =>
    intro progressed st
    cases hc : (bucketGet children st.tail.id).filter
        (fun p => !(st.seen.contains p.id)) with
    | nil => exact ⟨[], by rw [mastoWalk_of_all_seen _ _ hc]; simp⟩
    | cons next rest =>
      obtain ⟨t, ht⟩ := ih true
        { st with posts := st.posts ++ [next], seen := next.id :: st.seen,
                  tail := next, addedCount := st.addedCount + 1 }
      refine ⟨next :: t, ?_⟩
      simp only [mastoWalk, hc, ht]
      simp

theorem extendDescGo_step {dp : String → Option Int} {now : Int}
    {menv : String → MastoFetchOutcome} {instanceHost authorId : String}
    {n : Nat} (children : List (String × List Post)) (fuel : Nat)
    (st st1 : ExtendState) (hst1 : st1.posts = st.posts)
    (ih : ∀ st', ∃ t,
      (extendDescGo dp now menv instanceHost authorId n st').1.posts =
        st'.posts ++ t) :
    ∃ t, (if (mastoWalk children fuel false st1).2 = false
          then ((mastoWalk children fuel false st1).1, false, (0 : Int))
          else extendDescGo dp now menv instanceHost authorId n
            (mastoWalk children fuel false st1).1).1.posts =
      st.posts ++ t := by
  obtain ⟨t1, ht1⟩ := mastoWalk_posts_extend children fuel false st1
  rw [hst1] at ht1
  split
  · exact ⟨t1, ht1⟩
  · obtain ⟨t2, ht2⟩ := ih (mastoWalk children fuel false st1).1
    exact ⟨t1 ++ t2, by rw [ht2, ht1, List.append_assoc]⟩

theorem extendDescGo_posts_extend (dp : String → Option Int) (now : Int)
    (menv : String → MastoFetchOutcome) (instanceHost authorId : String) :
    ∀ (rem : Nat) (st : ExtendState),
      ∃ t, (extendDescGo dp now menv instanceHost authorId rem st).1.posts =
        st.posts ++ t := by
  intro rem
  induction rem with
  | zero => intro st; exact ⟨[], by simp [extendDescGo]⟩
  | succ n ih =>
    intro st
    cases he : menv (contextEndpoint instanceHost st.tail.id) with
    | rateLimit r => exact ⟨[], by simp [extendDescGo, he]⟩
    | fetchErr m => exact ⟨[], by simp [extendDescGo, he]⟩
    | ok raws =>
      by_cases hsa : (mastoSameAuthorOf instanceHost authorId raws).isEmpty
      · exact ⟨[], by simp [extendDescGo, he, hsa]⟩
      · simp only [extendDescGo, he, hsa, ite_false]
        exact extendDescGo_step _ _ st _ rfl ih

theorem extendDescendants_posts_extend (dp : String → Option Int) (now : Int)
    (menv : String → MastoFetchOutcome) (instanceHost authorId : String)
    (posts0 : List Post) (seen0 : List String) (maxOpt : Option Int) :
    ∃ t, (extendDescendants dp now menv instanceHost authorId posts0 seen0
      maxOpt).2 = posts0 ++ t := by
  unfold extendDescendants
  split
  · exact ⟨[], by simp⟩
  · simp only []
    exact extendDescGo_posts_extend dp now menv instanceHost authorId _ _

/-- C4: a successful `continueThread` (either adapter) returns a thread
whose `posts` sequence has the input thread's `posts` as an exact prefix,
new elements only appended at the end; the input `Thread` value itself is
immutable data in the embedding, matching the JS adapters' copy-then-push
discipline. -/
theorem continueThread_appends_only
    (dp : String → Option Int) (now : Int) (nowIso : String)
    (benv : String → Int → BskyFetchOutcome)
    (menv : String → MastoFetchOutcome)
    (bthread mthread : Thread) (bopts mopts : Option Int)
    (bres mres : ContinueResult)
    (hb : blueskyContinueThread dp now nowIso benv bthread bopts =
      Except.ok bres)
    (hm : mastodonContinueThread dp now nowIso menv mthread mopts =
      Except.ok mres) :
    (∃ t, bres.thread.posts = bthread.posts ++ t) ∧
    (∃ t, mres.thread.posts = mthread.posts ++ t) := by
  constructor
  · unfold blueskyContinueThread at hb
    split at hb
    · exact absurd hb (by simp)
    · split at hb
      · have := Except.ok.inj hb
        exact ⟨[], by rw [← this]; simp⟩
      · simp only [] at hb
        split at hb
        · have := Except.ok.inj hb
          exact ⟨[], by rw [← this]; simp⟩
        · exact absurd hb (by simp)
        · split at hb
          · have := Except.ok.inj hb
            exact ⟨_, by rw [← this]⟩
          · have := Except.ok.inj hb
            exact ⟨[], by rw [← this]; simp⟩
  · unfold mastodonContinueThread at hm
    split at hm
    · exact absurd hm (by simp)
    · split at hm
      · have := Except.ok.inj hm
        exact ⟨[], by rw [← this]; simp⟩
      · simp only [] at hm
        have := Except.ok.inj hm
        obtain ⟨t, ht⟩ := extendDescendants_posts_extend dp now menv
          mthread.instanceHost (mastoAuthorId mthread) mthread.posts
          (mthread.posts.map Post.id) (some (mastoMaxRequests mopts))
        exact ⟨t, by rw [← this]; exact ht⟩

def c4raw : BskyRawPost :=
  ⟨some "at://did:plc:d/app.bsky.feed.post/2", some ⟨some "d", some "h", none⟩,
   some ⟨some "", [], some "2024-01-02", some "P1"⟩, none, none, none, none,
   none⟩

def c4bthread : Thread :=
  ⟨"bluesky", "public.api.bsky.app", "P1", "u", "t0", false,
   [mkPost "P1" "2024-01-01" none "d"], ⟨"d", "h", "h", "h", "hurl"⟩⟩

def c4benv : String → Int → BskyFetchOutcome := fun _ _ =>
  .ok (some (.viewPost (some c4raw) none []))

def c4mthread : Thread :=
  ⟨"mastodon", "inst", "M1", "u", "t0", false,
   [mkPost "M1" "2024-01-01" none "ma"], ⟨"ma", "m", "m", "m", "murl"⟩⟩

def c4menv : String → MastoFetchOutcome := fun _ =>
  .ok [⟨"M2", none, "2024-01-02", none, none, false, some "M1", none, none,
        none, some ⟨some "ma", some "m", none, none, none⟩, [], none⟩]

def c4bres : ContinueResult :=
  ((blueskyContinueThread (fun _ => none) 0 "t1" c4benv c4bthread
    none).toOption).getD ⟨c4bthread, false, 0, 0⟩

def c4mres : ContinueResult :=
  ((mastodonContinueThread (fun _ => none) 0 "t1" c4menv c4mthread
    none).toOption).getD ⟨c4mthread, false, 0, 0⟩

/-- Witness for C4: concrete calls on both adapters that each append one
discovered same-author reply. -/
theorem continueThread_appends_only_witness :
    blueskyContinueThread (fun _ => none) 0 "t1" c4benv c4bthread none =
        Except.ok c4bres ∧
      mastodonContinueThread (fun _ => none) 0 "t1" c4menv c4mthread none =
        Except.ok c4mres ∧
      (∃ t, c4bres.thread.posts = c4bthread.posts ++ t) ∧
      (∃ t, c4mres.thread.posts = c4mthread.posts ++ t) :=
  ⟨by rfl, by rfl,
   continueThread_appends_only (fun _ => none) 0 "t1" c4benv c4menv
     c4bthread c4mthread none none c4bres c4mres (by rfl) (by rfl)⟩

/-- C9: every successful call to the Bluesky adapter's `fetchThread`
returns `hasMore = true`, `addedCount = 0` and `rateLimitedUntil = 0`
unconditionally — even when the fetched thread view already contained
every same-author descendant — so the caller is always signalled to make
at least one `continueThread` call. -/
theorem blueskyFetchThread_always_hasMore
    (dp : String → Option Int) (nowIso : String)
    (penv : String → BskyProfileOutcome)
    (tenv : String → Int → Int → BskyFetchOutcome)
    (inputUrl : String) (opts : Option Int) (res : ContinueResult)
    (h : blueskyFetchThread dp nowIso penv tenv inputUrl opts =
      Except.ok res) :
    res.hasMore = true ∧ res.addedCount = 0 ∧ res.rateLimitedUntil = 0 := by
  unfold blueskyFetchThread at h
  split at h
  · exact absurd h (by simp)
  · split at h
    · exact absurd h (by simp)
    · simp only [] at h
      split at h
      · exact absurd h (by simp)
      · split at h
        · exact absurd h (by simp)
        · exact absurd h (by simp)
        · split at h
          · split at h
            · exact absurd h (by simp)
            · have := Except.ok.inj h
              rw [← this]
              exact ⟨rfl, rfl, rfl⟩
          · exact absurd h (by simp)

def c9raw : BskyRawPost :=
  ⟨some "at://did:plc:9/app.bsky.feed.post/x1",
   some ⟨some "did:plc:9", some "alice.test", none⟩,
   some ⟨some "", [], some "2024-01-01", none⟩, none, none, none, none, none⟩

def c9call : Except String ContinueResult :=
  blueskyFetchThread (fun _ => some 1) "t0" (fun _ => .ok (some "did:plc:9"))
    (fun _ _ _ => .ok (some (.viewPost (some c9raw) none [])))
    "https://bsky.app/profile/alice.test/post/x1" none

def c9res : ContinueResult :=
  (c9call.toOption).getD ⟨c4bthread, false, 0, 0⟩

/-- Witness for C9: a concrete successful fetch whose response tree holds
only the seed post. -/
theorem blueskyFetchThread_always_hasMore_witness :
    c9call = Except.ok c9res ∧ c9res.hasMore = true ∧ c9res.addedCount = 0 ∧
      c9res.rateLimitedUntil = 0 :=
  ⟨by rfl,
   blueskyFetchThread_always_hasMore (fun _ => some 1) "t0"
     (fun _ => .ok (some "did:plc:9"))
     (fun _ _ _ => .ok (some (.viewPost (some c9raw) none [])))
     "https://bsky.app/profile/alice.test/post/x1" none c9res (by rfl)⟩

theorem extendDescGo_rateLimit (dp : String → Option Int) (now : Int)
    (menv : String → MastoFetchOutcome) (instanceHost authorId : String)
    (rem : Nat) (st : ExtendState) {r : Int}
    (h : menv (contextEndpoint instanceHost st.tail.id) =
      MastoFetchOutcome.rateLimit r) :
    extendDescGo dp now menv instanceHost authorId (rem + 1) st =
      (st, true, now + r) := by
  simp only [extendDescGo, h]

/-- C6: once extension is running, a rate-limit outcome is reported, not
thrown.  First conjunct: at any round of the Mastodon extension loop, from
any accumulated state, a rate-limited context fetch makes the loop return
that state with `hasMore = true` and `rateLimitedUntil = now +
retryAfterMs`.  Second: `mastodonAdapter.continueThread` then resolves
successfully with those flags and the accumulated posts.  Third:
`blueskyAdapter.continueThread` catches its rate-limit error and resolves
with `hasMore = true`, `rateLimitedUntil = now + retryAfterMs` and the
posts unchanged. -/
theorem rateLimit_reported_not_thrown :
    (∀ (dp : String → Option Int) (now : Int)
       (menv : String → MastoFetchOutcome) (instanceHost authorId : String)
       (rem : Nat) (st : ExtendState) (r : Int),
       menv (contextEndpoint instanceHost st.tail.id) =
         MastoFetchOutcome.rateLimit r →
       extendDescGo dp now menv instanceHost authorId (rem + 1) st =
         (st, true, now + r)) ∧
    (∀ (dp : String → Option Int) (now : Int) (nowIso : String)
       (menv : String → MastoFetchOutcome) (mthread : Thread)
       (mopts : Option Int) (tail : Post) (r : Int),
       mthread.platform = "mastodon" →
       mthread.posts.getLast? = some tail →
       0 < mastoMaxRequests mopts →
       menv (contextEndpoint mthread.instanceHost tail.id) =
         MastoFetchOutcome.rateLimit r →
       ∃ thread', mastodonContinueThread dp now nowIso menv mthread mopts =
           Except.ok ⟨thread', true, 0, now + r⟩ ∧
         thread'.posts = mthread.posts) ∧
    (∀ (dp : String → Option Int) (now : Int) (nowIso : String)
       (benv : String → Int → BskyFetchOutcome) (bthread : Thread)
       (bopts : Option Int) (tail : Post) (r : Int),
       bthread.platform = "bluesky" →
       bthread.posts.getLast? = some tail →
       benv tail.id (depthFromBudget bopts) =
         BskyFetchOutcome.rateLimit r →
       blueskyContinueThread dp now nowIso benv bthread bopts =
         Except.ok ⟨bthread, true, 0, now + r⟩) := by
  refine ⟨fun dp now menv iH aId rem st r h =>
    extendDescGo_rateLimit dp now menv iH aId rem st h, ?_, ?_⟩
  · intro dp now nowIso menv mthread mopts tail r hplat htail hmax henv
    obtain ⟨plat, inst, seedId, src, fetched, alt, posts, author⟩ := mthread
    simp only [] at hplat htail henv ⊢
    subst hplat
    cases posts with
    | nil => simp at htail
    | cons p0 rest =>
      unfold mastodonContinueThread
      rw [if_neg (by simp)]
      simp only []
      unfold extendDescendants
      rw [htail]
      simp only []
      have hM : mastoMaxRequests (some (mastoMaxRequests mopts)) =
          mastoMaxRequests mopts := by
        show (if mastoMaxRequests mopts = 0 then (3 : Int)
          else mastoMaxRequests mopts) = mastoMaxRequests mopts
        rw [if_neg (by omega)]
      rw [hM]
      obtain ⟨k, hk⟩ : ∃ k, (mastoMaxRequests mopts).toNat = k + 1 :=
        ⟨(mastoMaxRequests mopts).toNat - 1, by omega⟩
      rw [hk]
      rw [extendDescGo_rateLimit dp now menv inst (mastoAuthorId
        ⟨"mastodon", inst, seedId, src, fetched, alt, p0 :: rest, author⟩)
        k ⟨p0 :: rest, (p0 :: rest).map Post.id, tail, 0, false⟩ henv]
      exact ⟨_, rfl, rfl⟩
  · intro dp now nowIso benv bthread bopts tail r hplat htail henv
    obtain ⟨plat, inst, seedId, src, fetched, alt, posts, author⟩ := bthread
    simp only [] at hplat htail henv ⊢
    subst hplat
    unfold blueskyContinueThread
    rw [if_neg (by simp)]
    simp only []
    rw [htail]
    simp only [henv]

def c6st : ExtendState :=
  ⟨[mkPost "A" "2024" none "a"], ["A"], mkPost "A" "2024" none "a", 0, false⟩

def c6mthread : Thread :=
  ⟨"mastodon", "inst6", "A", "u", "t0", false,
   [mkPost "A" "2024" none "a"], ⟨"a", "a", "a", "a", "au"⟩⟩

def c6bthread : Thread :=
  ⟨"bluesky", "public.api.bsky.app", "B", "u", "t0", false,
   [mkPost "B" "2024" none "b"], ⟨"b", "b", "b", "b", "bu"⟩⟩

/-- Witness for C6 at concrete rate-limited fetches for both adapters and
a mid-loop state for the extension loop. -/
theorem rateLimit_reported_not_thrown_witness :
    extendDescGo (fun _ => none) 7 (fun _ => .rateLimit 5) "i" "a" (0 + 1)
        c6st = (c6st, true, 12) ∧
      (∃ thread', mastodonContinueThread (fun _ => none) 7 "t1"
          (fun _ => .rateLimit 5) c6mthread none =
            Except.ok ⟨thread', true, 0, 12⟩ ∧
        thread'.posts = c6mthread.posts) ∧
      blueskyContinueThread (fun _ => none) 7 "t1"
          (fun _ _ => .rateLimit 5) c6bthread none =
        Except.ok ⟨c6bthread, true, 0, 12⟩ :=
  ⟨rateLimit_reported_not_thrown.1 (fun _ => none) 7 (fun _ => .rateLimit 5)
     "i" "a" 0 c6st 5 rfl,
   rateLimit_reported_not_thrown.2.1 (fun _ => none) 7 "t1"
     (fun _ => .rateLimit 5) c6mthread none (mkPost "A" "2024" none "a") 5
     rfl rfl (by decide) rfl,
   rateLimit_reported_not_thrown.2.2 (fun _ => none) 7 "t1"
     (fun _ _ => .rateLimit 5) c6bthread none (mkPost "B" "2024" none "b") 5
     rfl rfl rfl⟩

theorem continueFromTail_no_new {dp : String → Option Int} {thread : Thread}
    {discovered : List Post}
    (hseen : ∀ p ∈ discovered, p.id ∈ thread.posts.map Post.id) :
    (continueFromTail dp thread discovered).1 = [] := by
  unfold continueFromTail
  simp only []
  cases htp : thread.posts.getLast? with
  | none => rfl
  | some tail =>
    show continueFromTailGo _ _ _ _ = []
    apply continueFromTailGo_of_all_seen
    apply List.filter_eq_nil.mpr
    intro p hp
    have hpd : p ∈ discovered := mem_bucketGet_buildChildrenMap hp
    have hmem := hseen p hpd
    simp [hmem]

theorem extendDescGo_no_new {dp : String → Option Int} {now : Int}
    {menv : String → MastoFetchOutcome} {instanceHost authorId : String}
    {st : ExtendState} (k : Nat)
    (hrl : ∀ r, menv (contextEndpoint instanceHost st.tail.id) ≠
      MastoFetchOutcome.rateLimit r)
    (hnew : ∀ raws, menv (contextEndpoint instanceHost st.tail.id) =
      MastoFetchOutcome.ok raws →
      ∀ p ∈ mastoSameAuthorOf instanceHost authorId raws, p.id ∈ st.seen) :
    ∃ alt, extendDescGo dp now menv instanceHost authorId (k + 1) st =
      ({ st with hasAlternateBranches := alt }, false, 0) := by
  cases he : menv (contextEndpoint instanceHost st.tail.id) with
  | rateLimit r => exact absurd he (hrl r)
  | fetchErr m =>
    exact ⟨st.hasAlternateBranches, by simp only [extendDescGo, he]⟩
  | ok raws =>
    by_cases hsa : (mastoSameAuthorOf instanceHost authorId raws).isEmpty
    · exact ⟨st.hasAlternateBranches, by simp [extendDescGo, he, hsa]⟩
    · have hfil : ((bucketGet
          (mastoChildren dp (mastoSameAuthorOf instanceHost authorId raws))
          st.tail.id).filter (fun p => !(st.seen.contains p.id))) = [] := by
        apply List.filter_eq_nil.mpr
        intro p hp
        have hpd := mem_bucketGet_mastoChildren hp
        have hmem := hnew raws he p hpd
        simp [hmem]
      have hwalk := @mastoWalk_of_all_seen
        (mastoChildren dp (mastoSameAuthorOf instanceHost authorId raws))
        { st with hasAlternateBranches := st.hasAlternateBranches ||
            (mastoChildren dp (mastoSameAuthorOf instanceHost authorId
              raws)).any (fun kv => 1 < kv.2.length) }
        ((mastoSameAuthorOf instanceHost authorId raws).length + 1) false
        hfil
      refine ⟨st.hasAlternateBranches ||
        (mastoChildren dp (mastoSameAuthorOf instanceHost authorId
          raws)).any (fun kv => 1 < kv.2.length), ?_⟩
      simp only [extendDescGo, he, hsa, ite_false, hwalk]
      simp

/-- C5, idempotence: when a `continueThread` call discovers no same-author
descendants beyond those already in the thread (every discovered post's id
is already present) and no rate limit occurs, it returns `addedCount = 0`,
`hasMore = false`, `rateLimitedUntil = 0` and the posts sequence unchanged.
For the Mastodon adapter the normalized request budget must admit at least
one request (`options.maxContextRequests || 3` is positive), which holds
for every non-negative option value. -/
theorem continueThread_noNew_idempotent :
    (∀ (dp : String → Option Int) (now : Int) (nowIso : String)
       (benv : String → Int → BskyFetchOutcome) (bthread : Thread)
       (bopts : Option Int) (bres : ContinueResult),
       blueskyContinueThread dp now nowIso benv bthread bopts =
         Except.ok bres →
       (∀ uri d r, benv uri d ≠ BskyFetchOutcome.rateLimit r) →
       (∀ uri d root, benv uri d = BskyFetchOutcome.ok (some root) →
         ∀ p ∈ bskySameAuthorOf dp nowIso bthread.author.id root,
           p.id ∈ bthread.posts.map Post.id) →
       bres.hasMore = false ∧ bres.addedCount = 0 ∧
         bres.rateLimitedUntil = 0 ∧ bres.thread.posts = bthread.posts) ∧
    (∀ (dp : String → Option Int) (now : Int) (nowIso : String)
       (menv : String → MastoFetchOutcome) (mthread : Thread)
       (mopts : Option Int) (mres : ContinueResult),
       mastodonContinueThread dp now nowIso menv mthread mopts =
         Except.ok mres →
       (∀ ep r, menv ep ≠ MastoFetchOutcome.rateLimit r) →
       (∀ ep raws, menv ep = MastoFetchOutcome.ok raws →
         ∀ p ∈ mastoSameAuthorOf mthread.instanceHost
             (mastoAuthorId mthread) raws,
           p.id ∈ mthread.posts.map Post.id) →
       0 < mastoMaxRequests mopts →
       mres.hasMore = false ∧ mres.addedCount = 0 ∧
         mres.rateLimitedUntil = 0 ∧ mres.thread.posts = mthread.posts) := by
  constructor
  · intro dp now nowIso benv bthread bopts bres h hrl hnew
    unfold blueskyContinueThread at h
    split at h
    · exact absurd h (by simp)
    · split at h
      · have := Except.ok.inj h
        rw [← this]
        exact ⟨rfl, rfl, rfl, rfl⟩
      · rename_i tail htail
        simp only [] at h
        split at h
        · rename_i r henv
          exact absurd henv (hrl _ _ r)
        · exact absurd h (by simp)
        · rename_i root henv
          split at h
          · rename_i post parent replies
            have hadd : (continueFromTail dp bthread
                (bskySameAuthorOf dp nowIso bthread.author.id
                  (.viewPost post parent replies))).1 = [] :=
              continueFromTail_no_new (hnew _ _ _ henv)
            rw [hadd] at h
            simp only [List.append_nil, List.length_nil] at h
            have := Except.ok.inj h
            rw [← this]
            exact ⟨by simp, rfl, rfl, rfl⟩
          · have := Except.ok.inj h
            rw [← this]
            exact ⟨rfl, rfl, rfl, rfl⟩
  · intro dp now nowIso menv mthread mopts mres h hrl hnew hmax
    unfold mastodonContinueThread at h
    split at h
    · exact absurd h (by simp)
    · split at h
      · have := Except.ok.inj h
        rw [← this]
        exact ⟨rfl, rfl, rfl, rfl⟩
      · rename_i p0 rest hposts
        simp only [] at h
        cases hgl : mthread.posts.getLast? with
        | none =>
          rw [List.getLast?_eq_none_iff] at hgl
          rw [hposts] at hgl
          simp at hgl
        | some tl =>
          unfold extendDescendants at h
          rw [hgl] at h
          simp only [] at h
          have hM : mastoMaxRequests (some (mastoMaxRequests mopts)) =
              mastoMaxRequests mopts := by
            show (if mastoMaxRequests mopts = 0 then (3 : Int)
              else mastoMaxRequests mopts) = mastoMaxRequests mopts
            rw [if_neg (by omega)]
          rw [hM] at h
          obtain ⟨k, hk⟩ : ∃ k, (mastoMaxRequests mopts).toNat = k + 1 :=
            ⟨(mastoMaxRequests mopts).toNat - 1, by omega⟩
          rw [hk] at h
          obtain ⟨alt, halt⟩ := @extendDescGo_no_new dp now menv
            mthread.instanceHost (mastoAuthorId mthread)
            ⟨mthread.posts, mthread.posts.map Post.id, tl, 0, false⟩
            k (fun r => hrl _ r) (fun raws he p hp => hnew _ raws he p hp)
          rw [halt] at h
          have := Except.ok.inj h
          rw [← this]
          exact ⟨rfl, rfl, rfl, rfl⟩

def c5node : BskyNode :=
  .viewPost (some ⟨some "at://z/9", some ⟨some "z", some "zh", none⟩,
    some ⟨some "", [], some "2024", none⟩, none, none, none, none, none⟩)
    none []

def c5benv : String → Int → BskyFetchOutcome := fun _ _ => .ok (some c5node)

def c5bthread : Thread :=
  ⟨"bluesky", "public.api.bsky.app", "B5", "u", "t0", false,
   [mkPost "B5" "2024" none "d"], ⟨"d", "d", "d", "d", "du"⟩⟩

def c5menv : String → MastoFetchOutcome := fun _ => .ok []

def c5mthread : Thread :=
  ⟨"mastodon", "inst5", "M5", "u", "t0", false,
   [mkPost "M5" "2024" none "ma"], ⟨"ma", "m", "m", "m", "mu"⟩⟩

def c5bres : ContinueResult :=
  ((blueskyContinueThread (fun _ => none) 0 "t1" c5benv c5bthread
    none).toOption).getD ⟨c5bthread, true, 1, 1⟩

def c5mres : ContinueResult :=
  ((mastodonContinueThread (fun _ => none) 0 "t1" c5menv c5mthread
    none).toOption).getD ⟨c5mthread, true, 1, 1⟩

/-- Witness for C5: concrete calls where the fetched context holds no new
same-author descendant (a foreign-author reply for Bluesky, an empty
context for Mastodon). -/
theorem continueThread_noNew_idempotent_witness :
    blueskyContinueThread (fun _ => none) 0 "t1" c5benv c5bthread none =
        Except.ok c5bres ∧
      mastodonContinueThread (fun _ => none) 0 "t1" c5menv c5mthread none =
        Except.ok c5mres ∧
      (c5bres.hasMore = false ∧ c5bres.addedCount = 0 ∧
        c5bres.rateLimitedUntil = 0 ∧
        c5bres.thread.posts = c5bthread.posts) ∧
      (c5mres.hasMore = false ∧ c5mres.addedCount = 0 ∧
        c5mres.rateLimitedUntil = 0 ∧
        c5mres.thread.posts = c5mthread.posts) :=
  ⟨by rfl, by rfl,
   continueThread_noNew_idempotent.1 (fun _ => none) 0 "t1" c5benv c5bthread
     none c5bres (by rfl)
     (by intro uri d r h; simp [c5benv] at h)
     (by
       intro uri d root h p hp
       simp [c5benv] at h
       subst h
       rw [show bskySameAuthorOf (fun _ => none) "t1" c5bthread.author.id
         c5node = [] from rfl] at hp
       simp at hp),
   continueThread_noNew_idempotent.2 (fun _ => none) 0 "t1" c5menv c5mthread
     none c5mres (by rfl)
     (by intro ep r h; simp [c5menv] at h)
     (by
       intro ep raws h p hp
       simp [c5menv] at h
       subst h
       rw [show mastoSameAuthorOf c5mthread.instanceHost
         (mastoAuthorId c5mthread) [] = [] from rfl] at hp
       simp at hp)
     (by decide)⟩

end Threader
